import Mathlib

/-!
giscus-goproxy: the streaming literal replacer and the response rewriting hook.

A shallow embedding of `main.go`:

* `streamReplaceWriter` with `Write` and `Flush` (lines 17-53),
* the constants `pattern` and `replacement` (lines 14-15),
* the `ModifyResponse` hook of the reverse proxy together with its producer
  goroutine (lines 78-105).

Byte slices are lists of bytes, a `nil` slice and an empty slice are both `[]`.
An `io.Writer` is a value that records every `Write` call it receives and answers
each call with `nil` or an error.
-/

namespace GiscusProxy

/-- One byte of a Go `[]byte` or `string`. -/
abbrev Byte := Fin 256

/-! ## Go standard library: `bytes.ReplaceAll`, `strings.Contains` -/

/-- Width reported by `utf8.DecodeRune` for the sequence at the head of a non-empty
slice: the length of a well-formed UTF-8 encoding, and `1` for anything else. -/
def runeWidth : List Byte → Nat
  | [] => 0
  | p0 :: rest =>
    let cont : Byte → Bool := fun b => 0x80 ≤ b.val && b.val ≤ 0xBF
    let second : Byte → Bool := fun b =>
      if p0.val = 0xE0 then 0xA0 ≤ b.val && b.val ≤ 0xBF
      else if p0.val = 0xED then 0x80 ≤ b.val && b.val ≤ 0x9F
      else if p0.val = 0xF0 then 0x90 ≤ b.val && b.val ≤ 0xBF
      else if p0.val = 0xF4 then 0x80 ≤ b.val && b.val ≤ 0x8F
      else cont b
    if p0.val < 0x80 then 1
    else if p0.val < 0xC2 then 1
    else if p0.val < 0xE0 then
      match rest with
      | b1 :: _ => if second b1 then 2 else 1
      | _ => 1
    else if p0.val < 0xF0 then
      match rest with
      | b1 :: b2 :: _ => if second b1 && cont b2 then 3 else 1
      | _ => 1
    else if p0.val < 0xF5 then
      match rest with
      | b1 :: b2 :: b3 :: _ => if second b1 && cont b2 && cont b3 then 4 else 1
      | _ => 1
    else 1

/-- Replacement loop of `bytes.Replace` for an empty `old`: `new` is inserted at the
beginning of the slice and after each UTF-8 sequence.  The counter is the number of
bytes of the current sequence still to be copied. -/
def replaceAtRunes (new : List Byte) : Nat → List Byte → List Byte
  | _, [] => new
  | 0, c :: t => new ++ c :: replaceAtRunes new (runeWidth (c :: t) - 1) t
  | k + 1, c :: t => c :: replaceAtRunes new k t

/-- Replacement loop of `bytes.Replace` for a non-empty `old`: scanning left to right,
the leftmost occurrence of `old` is replaced by `new` and scanning resumes right after
the matched region.  The counter is the number of bytes of the current match still to
be skipped. -/
def replaceScan (old new : List Byte) : Nat → List Byte → List Byte
  | _, [] => []
  | 0, c :: t =>
    if old.isPrefixOf (c :: t) then new ++ replaceScan old new (old.length - 1) t
    else c :: replaceScan old new 0 t
  | k + 1, _ :: t => replaceScan old new k t

/-- Go's `bytes.ReplaceAll(s, old, new)`: a copy of `s` with all non-overlapping
instances of `old` replaced by `new`; an empty `old` matches at the beginning of the
slice and after each UTF-8 sequence. -/
def ReplaceAll (s old new : List Byte) : List Byte :=
  if old = [] then replaceAtRunes new 0 s else replaceScan old new 0 s

/-- Go's `bytes.Contains` / `strings.Contains`: `sub` occurs in `s` as a contiguous
run of elements. -/
def Contains {α : Type} [DecidableEq α] : List α → List α → Bool
  | [], sub => sub.isPrefixOf []
  | c :: t, sub => sub.isPrefixOf (c :: t) || Contains t sub

/-! ## Go errors, `io.Writer` -/

/-- A non-nil Go `error` value.  The named constructors are the sentinel errors of
package `io` that the code can meet; `other` stands for any other error value, told
apart by an identifier.  A Go `error` is an `Option Error`, with `none` for `nil`. -/
inductive Error where
  | EOF
  | ErrShortWrite
  | errInvalidWrite
  | ErrClosedPipe
  | other (id : Nat)
  deriving DecidableEq, Repr

/-- An `io.Writer`: `calls` is the record of the byte slices passed to `Write` so far,
`answer` gives the error (`none` for `nil`) returned to a call from the record and the
slice written. -/
structure Sink where
  calls : List (List Byte)
  answer : List (List Byte) → List Byte → Option Error

/-- One call `w.Write(out)`: the call is recorded and answered. -/
def Sink.Write (w : Sink) (out : List Byte) : Sink × Option Error :=
  ({ w with calls := w.calls ++ [out] }, w.answer w.calls out)

/-- All the bytes passed to the writer so far, in order. -/
def Sink.emitted (w : Sink) : List Byte := w.calls.flatten

/-- A writer whose `Write` never returns an error. -/
def Sink.neverFails (w : Sink) : Prop := ∀ h out, w.answer h out = none

/-- A fresh writer that accepts every write. -/
def Sink.accepting : Sink := { calls := [], answer := fun _ _ => none }

/-! ## `streamReplaceWriter` (main.go, lines 17-53) -/

/-- The struct `streamReplaceWriter`. -/
structure streamReplaceWriter where
  w : Sink
  pat : List Byte
  rep : List Byte
  buf : List Byte

/-- The constructor `newStreamReplaceWriter`: `buf` starts as the nil slice. -/
def newStreamReplaceWriter (w : Sink) (pat rep : List Byte) :
    streamReplaceWriter :=
  { w := w, pat := pat, rep := rep, buf := [] }

/-- Line 30 of `Write`: `srw.buf = append(srw.buf, p...)`. -/
def streamReplaceWriter.appendChunk (srw : streamReplaceWriter)
    (p : List Byte) : streamReplaceWriter :=
  { srw with buf := srw.buf ++ p }

/-- Line 33 of `Write`: `safe := len(srw.buf) - len(srw.pat) + 1`, a Go `int`. -/
def streamReplaceWriter.safe (srw : streamReplaceWriter) : Int :=
  (srw.buf.length : Int) - (srw.pat.length : Int) + 1

/-- The method `Write`.  The result is the new state of the writer together with the
returned pair `(n, err)`.  For a non-empty pattern `safe ≤ len(srw.buf)`, so the slice
expressions `srw.buf[:safe]` and `srw.buf[safe:]` are `take` and `drop`.  (With an empty
pattern `safe` is `len(srw.buf) + 1` and the Go slice expression reaches into the
capacity of the slice or panics; the statements below are about non-empty patterns.) -/
def streamReplaceWriter.Write (srw : streamReplaceWriter) (p : List Byte) :
    streamReplaceWriter × (Int × Option Error) :=
  let srw1 := srw.appendChunk p
  let safe := srw1.safe
  if safe ≤ 0 then
    (srw1, ((p.length : Int), none))
  else
    let out := ReplaceAll (srw1.buf.take safe.toNat) srw1.pat srw1.rep
    match srw1.w.Write out with
    | (w1, some err) => ({ srw1 with w := w1 }, (0, some err))
    | (w1, none) =>
      ({ srw1 with w := w1, buf := srw1.buf.drop safe.toNat }, ((p.length : Int), none))

/-- The method `Flush`.  The result is the new state of the writer together with the
returned error. -/
def streamReplaceWriter.Flush (srw : streamReplaceWriter) :
    streamReplaceWriter × Option Error :=
  if srw.buf.length = 0 then
    (srw, none)
  else
    let out := ReplaceAll srw.buf srw.pat srw.rep
    match srw.w.Write out with
    | (w1, err) => ({ srw with w := w1, buf := [] }, err)

/-- Calling `Write` on each chunk in order, whatever each call returns. -/
def streamReplaceWriter.writeChunks (srw : streamReplaceWriter) :
    List (List Byte) → streamReplaceWriter
  | [] => srw
  | p :: ps => (srw.Write p).1.writeChunks ps

/-- Every `Write` call of the sequence returns a `nil` error. -/
def streamReplaceWriter.writesSucceed (srw : streamReplaceWriter) :
    List (List Byte) → Bool
  | [] => true
  | p :: ps => (srw.Write p).2.2.isNone && (srw.Write p).1.writesSucceed ps

/-- The bytes that reach the writer when the chunks are written in order to a fresh
replacer and `Flush` is called at the end. -/
def streamOutput (w : Sink) (pat rep : List Byte)
    (chunks : List (List Byte)) : List Byte :=
  (((newStreamReplaceWriter w pat rep).writeChunks chunks).Flush).1.w.emitted

/-- The bytes of an ASCII string. -/
def ascii (s : String) : List Byte := s.toList.map (fun c => Fin.ofNat c.toNat)

/-! ## The constants (main.go, lines 14-15) -/

/-- The constant `pattern`.  It is a raw string literal, so each of the four escapes in
the source text (a backslash, the letter `u` and four hexadecimal digits) stands as six
literal characters; the dash before `powered by` is U+2013, in UTF-8 the three bytes
`E2 80 93`.  The value has 63 bytes. -/
def pattern : List Byte :=
  ascii "\"poweredBy\": \"" ++ [0xE2, 0x80, 0x93] ++
    ascii " powered by \\u003ca\\u003egiscus\\u003c/a\\u003e\""

/-- The constant `replacement`: the bytes of `"poweredBy": ""`. -/
def replacement : List Byte := ascii "\"poweredBy\": \"\""

/-! ## `io.Copy`, `io.Pipe` and `http.Header` -/

/-- Go's `io.Copy(dst, src)` for a destination that is a `streamReplaceWriter` and a
source that yields the chunks `reads` to successive `Read` calls and then ends with the
error `final` (`io.EOF` at a clean end).  A read of zero bytes makes no `Write` call. -/
def ioCopy (dst : streamReplaceWriter) (final : Error) :
    List (List Byte) → streamReplaceWriter × Option Error
  | [] => (dst, if final = Error.EOF then none else some final)
  | p :: ps =>
    if p.length = 0 then ioCopy dst final ps
    else
      match dst.Write p with
      | (dst1, (nw, ew)) =>
        let nr : Int := p.length
        let bad : Bool := decide (nw < 0) || decide (nr < nw)
        let nw1 : Int := if bad then 0 else nw
        let ew1 : Option Error :=
          if bad then (match ew with | none => some Error.errInvalidWrite | some e => some e)
          else ew
        match ew1 with
        | some e => (dst1, some e)
        | none => if nr ≠ nw1 then (dst1, some Error.ErrShortWrite) else ioCopy dst1 final ps

/-- The write half of an `io.Pipe`: the writer `w` (whose answers are decided by what
the read half does) and the once-only error cell `werr` that the first close fills. -/
structure PipeWriter where
  w : Sink
  werr : Option Error

/-- Go's `(*PipeWriter).CloseWithError`: a `nil` error is stored as `io.EOF`, and only
the first close stores anything. -/
def PipeWriter.CloseWithError (pw : PipeWriter) (err : Option Error) : PipeWriter :=
  let e : Error := match err with
    | none => Error.EOF
    | some e => e
  match pw.werr with
  | some _ => pw
  | none => { pw with werr := some e }

/-- Go's `(*PipeWriter).Close`, which is `CloseWithError(nil)`. -/
def PipeWriter.Close (pw : PipeWriter) : PipeWriter := pw.CloseWithError none

/-- An `http.Header`: canonical keys with their values. -/
abbrev Header := List (String × List (List Byte))

/-- Go's `Header.Get` for a canonical key: the first value stored under the key, and
the empty string when there is none. -/
def Header.Get (h : Header) (key : String) : List Byte :=
  match h.lookup key with
  | some (v :: _) => v
  | _ => []

/-- Go's `Header.Del` for a canonical key: the entry of the key is removed. -/
def Header.Del (h : Header) (key : String) : Header :=
  h.filter (fun kv => kv.1 ≠ key)

/-! ## `proxy.ModifyResponse` (main.go, lines 78-105) -/

/-- A response body (`io.ReadCloser`): either a stream that yields the chunks `reads`
to successive `Read` calls and ends with the error `final` (`io.EOF` at a clean end), or
the read half of the pipe that the producer goroutine of `ModifyResponse` fills from the
body `src`. -/
inductive Body where
  | stream (reads : List (List Byte)) (final : Error)
  | pipeReader (src : Body)
  deriving DecidableEq

/-- The fields of `http.Response` that `ModifyResponse` uses. -/
structure Response where
  Header : Header
  Body : Body
  deriving DecidableEq

/-- The producer goroutine (lines 91-101) run on the write half `pw` of the pipe, with
the source body yielding `reads` and ending with `final`.  The result is the final state
of the write half: the record of the writes made and the error it was closed with. -/
def producer (pw : PipeWriter) (reads : List (List Byte)) (final : Error) : PipeWriter :=
  let srw := newStreamReplaceWriter pw.w pattern replacement
  match ioCopy srw final reads with
  | (srw1, err) =>
    match srw1.Flush with
    | (srw2, err2) =>
      let err := if err = none then err2 else err
      let pw1 : PipeWriter := { pw with w := srw2.w }
      let pw2 : PipeWriter :=
        match err with
        | some e => pw1.CloseWithError (some e)
        | none => pw1
      pw2.Close

/-- What a consumer that reads a body to exhaustion observes: the chunks delivered and
the error that ends the stream (`io.EOF` at a clean end).  For the read half of a pipe
these are the writes of the producer goroutine, none of which fails because the consumer
keeps reading, and the error the producer closed the pipe with. -/
def Body.drain : Body → List (List Byte) × Error
  | Body.stream reads final => (reads, final)
  | Body.pipeReader src =>
    match src.drain with
    | (reads, final) =>
      match producer { w := Sink.accepting, werr := none } reads final with
      | pw => (pw.w.calls, match pw.werr with
          | some e => e
          | none => Error.EOF)

/-- The bytes and the end of stream that `io.ReadAll`-style draining of a body gives. -/
def Body.readAll (b : Body) : List Byte × Error := (b.drain.1.flatten, b.drain.2)

/-- The hook `proxy.ModifyResponse`: the response after the call and the returned
error. -/
def ModifyResponse (resp : Response) : Response × Option Error :=
  let ct := resp.Header.Get "Content-Type"
  if !(Contains ct (ascii "json") || Contains ct (ascii "text")
      || Contains ct (ascii "javascript")) then
    (resp, none)
  else
    let h1 := resp.Header.Del "Content-Length"
    let h2 := Header.Del h1 "Content-Encoding"
    ({ Header := h2, Body := Body.pipeReader resp.Body }, none)

/-! ## Bookkeeping for sequences of writes -/

/-- The slice that `Write` passes to `bytes.ReplaceAll` on the chunk `p` (line 37,
`srw.buf[:safe]`), as a list of one element; the list is empty when `safe ≤ 0`, where
`Write` returns before line 37. -/
def streamReplaceWriter.handed (srw : streamReplaceWriter) (p : List Byte) :
    List (List Byte) :=
  let srw1 := srw.appendChunk p
  if srw1.safe ≤ 0 then [] else [srw1.buf.take srw1.safe.toNat]

/-- The slices passed to `bytes.ReplaceAll` by the `Write` calls of a sequence, in
order. -/
def streamReplaceWriter.handedAll (srw : streamReplaceWriter) :
    List (List Byte) → List (List Byte)
  | [] => []
  | p :: ps => srw.handed p ++ (srw.Write p).1.handedAll ps

/-- The reads of a source that make `io.Copy` call `Write`: those of at least one
byte. -/
def nonEmptyReads (reads : List (List Byte)) : List (List Byte) :=
  reads.filter (fun p => decide (p.length ≠ 0))

/-- The number `n_k` of bytes in the first `k` chunks. -/
def chunkEnd (chunks : List (List Byte)) (k : Nat) : Nat := (chunks.take k).flatten.length

/-- The cut points of a chunking for the pattern `P`: `cut_0 = 0` and
`cut_k = max(0, n_k - (len(P) - 1))`. -/
def cutPoint (P : List Byte) (chunks : List (List Byte)) : Nat → Nat
  | 0 => 0
  | k + 1 => (max 0 ((chunkEnd chunks (k + 1) : Int) - ((P.length : Int) - 1))).toNat

/-- Go's slice expression `S[a:b]`. -/
def slice (S : List Byte) (a b : Nat) : List Byte := (S.take b).drop a

/-- The output described segment by segment, for the chunks `c_1 .. c_m` of `S`:
`ReplaceAll(S[cut_0:cut_1], P, R) ++ ... ++ ReplaceAll(S[cut_{m-1}:cut_m], P, R) ++
ReplaceAll(S[cut_m:], P, R)`. -/
def segmentedOutput (P R : List Byte) (chunks : List (List Byte)) : List Byte :=
  ((List.range chunks.length).map (fun k =>
      ReplaceAll (slice chunks.flatten (cutPoint P chunks k) (cutPoint P chunks (k + 1))) P R)).flatten
    ++ ReplaceAll (chunks.flatten.drop (cutPoint P chunks chunks.length)) P R

/-! ## `bytes.ReplaceAll` on a non-empty pattern -/

/-- The bytes of the constant `pattern`, as they stand in the source file. -/
theorem pattern_bytes :
    pattern = [34, 112, 111, 119, 101, 114, 101, 100, 66, 121, 34, 58, 32, 34, 226, 128,
      147, 32, 112, 111, 119, 101, 114, 101, 100, 32, 98, 121, 32, 92, 117, 48, 48, 51, 99,
      97, 92, 117, 48, 48, 51, 101, 103, 105, 115, 99, 117, 115, 92, 117, 48, 48, 51, 99,
      47, 97, 92, 117, 48, 48, 51, 101, 34] := by
  decide

/-- The bytes of the constant `replacement`, as they stand in the source file. -/
theorem replacement_bytes :
    replacement = [34, 112, 111, 119, 101, 114, 101, 100, 66, 121, 34, 58, 32, 34, 34] := by
  decide

/-- Skipping `k` bytes in the scan is scanning the input without its first `k` bytes. -/
theorem replaceScan_skip (old new : List Byte) :
    ∀ (k : Nat) (s : List Byte), replaceScan old new k s = replaceScan old new 0 (s.drop k)
  | 0, _ => rfl
  | _ + 1, [] => rfl
  | k + 1, _ :: t => by
    simp only [replaceScan, List.drop_succ_cons]
    exact replaceScan_skip old new k t

/-- `ReplaceAll` of the empty slice is empty, for a non-empty pattern. -/
theorem ReplaceAll_nil (old new : List Byte) (hold : old ≠ []) :
    ReplaceAll [] old new = [] := by
  simp [ReplaceAll, hold, replaceScan]

/-- `ReplaceAll` at an occurrence: the match is replaced and the scan resumes right after
the matched region. -/
theorem ReplaceAll_at_match (old new rest : List Byte) (hold : old ≠ []) :
    ReplaceAll (old ++ rest) old new = new ++ ReplaceAll rest old new := by
  cases old with
  | nil => exact absurd rfl hold
  | cons a o =>
    have hpre : (a :: o).isPrefixOf (a :: (o ++ rest)) = true :=
      List.isPrefixOf_iff_prefix.mpr ⟨rest, rfl⟩
    have hstep : replaceScan (a :: o) new 0 (a :: (o ++ rest)) =
        new ++ replaceScan (a :: o) new ((a :: o).length - 1) (o ++ rest) := by
      show (if (a :: o).isPrefixOf (a :: (o ++ rest)) then
          new ++ replaceScan (a :: o) new ((a :: o).length - 1) (o ++ rest)
        else a :: replaceScan (a :: o) new 0 (o ++ rest)) = _
      rw [if_pos hpre]
    simp only [ReplaceAll, if_neg hold, List.cons_append]
    rw [hstep, replaceScan_skip]
    simp

/-- `ReplaceAll` where the pattern does not start: the byte is copied and the scan moves
on by one byte. -/
theorem ReplaceAll_at_no_match (old new : List Byte) (c : Byte) (t : List Byte)
    (hold : old ≠ []) (h : ¬ old <+: c :: t) :
    ReplaceAll (c :: t) old new = c :: ReplaceAll t old new := by
  have hpre : old.isPrefixOf (c :: t) = false := by
    cases hp : old.isPrefixOf (c :: t) with
    | false => rfl
    | true => exact absurd (List.isPrefixOf_iff_prefix.mp hp) h
  simp [ReplaceAll, hold, replaceScan, hpre]

/-! ## Single calls of `Write` and `Flush` -/

/-- The value of `Write` when `safe ≤ 0`. -/
theorem Write_of_safe_nonpos (srw : streamReplaceWriter) (p : List Byte)
    (h : (srw.appendChunk p).safe ≤ 0) :
    srw.Write p = (srw.appendChunk p, ((p.length : Int), none)) := by
  simp [streamReplaceWriter.Write, h]

/-- The value of `Write` when `safe > 0` and the writer answers `nil`. -/
theorem Write_of_safe_pos_ok (srw : streamReplaceWriter) (p : List Byte)
    (h : 0 < (srw.appendChunk p).safe)
    (hok : srw.w.answer srw.w.calls
      (ReplaceAll ((srw.buf ++ p).take (srw.appendChunk p).safe.toNat) srw.pat srw.rep) = none) :
    srw.Write p =
      ({ srw with
          w := { srw.w with calls := srw.w.calls ++
            [ReplaceAll ((srw.buf ++ p).take (srw.appendChunk p).safe.toNat) srw.pat srw.rep] },
          buf := (srw.buf ++ p).drop (srw.appendChunk p).safe.toNat },
        ((p.length : Int), none)) := by
  have h1 : ¬ (srw.appendChunk p).safe ≤ 0 := not_le.mpr h
  simp only [streamReplaceWriter.Write, h1, if_false, Sink.Write]
  simp only [streamReplaceWriter.appendChunk] at hok ⊢
  rw [hok]

/-- The value of `Write` when `safe > 0` and the writer answers with an error. -/
theorem Write_of_safe_pos_err (srw : streamReplaceWriter) (p : List Byte) (e : Error)
    (h : 0 < (srw.appendChunk p).safe)
    (herr : srw.w.answer srw.w.calls
      (ReplaceAll ((srw.buf ++ p).take (srw.appendChunk p).safe.toNat) srw.pat srw.rep)
        = some e) :
    srw.Write p =
      ({ srw with
          w := { srw.w with calls := srw.w.calls ++
            [ReplaceAll ((srw.buf ++ p).take (srw.appendChunk p).safe.toNat) srw.pat srw.rep] },
          buf := srw.buf ++ p },
        (0, some e)) := by
  have h1 : ¬ (srw.appendChunk p).safe ≤ 0 := not_le.mpr h
  simp only [streamReplaceWriter.Write, h1, if_false, Sink.Write]
  simp only [streamReplaceWriter.appendChunk] at herr ⊢
  rw [herr]

/-- The value of `safe` after the append, written out. -/
theorem safe_appendChunk (srw : streamReplaceWriter) (p : List Byte) :
    (srw.appendChunk p).safe =
      ((srw.buf ++ p).length : Int) - ((srw.pat.length : Int) - 1) := by
  simp only [streamReplaceWriter.safe, streamReplaceWriter.appendChunk]
  ring

/-- C7: one `Write` step.  With `B = buf ++ chunk` and `safeLen = len(B) - (len(P) - 1)`
for a non-empty pattern `P`: if `safeLen ≤ 0` nothing is written, the buffer becomes `B`
and the call returns `(len(chunk), nil)`; if `safeLen > 0` and the writer accepts the
write, exactly `ReplaceAll(B[:safeLen], P, R)` is written in one call, the buffer becomes
`B[safeLen:]`, whose length is `len(P) - 1`, and the call returns `(len(chunk), nil)`. -/
theorem Write_single_step (srw : streamReplaceWriter) (p : List Byte)
    (hpat : srw.pat ≠ []) :
    ((((srw.buf ++ p).length : Int) - ((srw.pat.length : Int) - 1) ≤ 0 →
        srw.Write p = ({ srw with buf := srw.buf ++ p }, ((p.length : Int), none))) ∧
      (0 < (((srw.buf ++ p).length : Int) - ((srw.pat.length : Int) - 1)) →
        srw.w.answer srw.w.calls
          (ReplaceAll ((srw.buf ++ p).take
            (((srw.buf ++ p).length : Int) - ((srw.pat.length : Int) - 1)).toNat)
            srw.pat srw.rep) = none →
        srw.Write p =
          ({ srw with
              w := { srw.w with calls := srw.w.calls ++
                [ReplaceAll ((srw.buf ++ p).take
                  (((srw.buf ++ p).length : Int) - ((srw.pat.length : Int) - 1)).toNat)
                  srw.pat srw.rep] },
              buf := (srw.buf ++ p).drop
                (((srw.buf ++ p).length : Int) - ((srw.pat.length : Int) - 1)).toNat },
            ((p.length : Int), none)) ∧
        ((((srw.buf ++ p).drop
            (((srw.buf ++ p).length : Int) - ((srw.pat.length : Int) - 1)).toNat).length : Int)
          = (srw.pat.length : Int) - 1))) := by
  rw [← safe_appendChunk]
  refine ⟨fun h => ?_, fun h hok => ⟨?_, ?_⟩⟩
  · rw [Write_of_safe_nonpos srw p h]; rfl
  · exact Write_of_safe_pos_ok srw p h hok
  · have hlen : 0 < srw.pat.length := List.length_pos.mpr hpat
    rw [safe_appendChunk] at h ⊢
    rw [List.length_drop]
    omega

/-- C7, at a concrete step: pattern `abc`, buffer `ab`, chunk `cab`; `safeLen` is `3`,
`X` is written and `ab` is kept. -/
theorem Write_single_step_witness :
    (ascii "abc" ≠ []) ∧
      (streamReplaceWriter.mk Sink.accepting (ascii "abc") (ascii "X") (ascii "ab")).Write
          (ascii "cab") =
        ({ w := { calls := [ascii "X"], answer := Sink.accepting.answer },
           pat := ascii "abc", rep := ascii "X", buf := ascii "ab" },
          ((3 : Int), none)) :=
  ⟨by decide,
    ((Write_single_step
      (streamReplaceWriter.mk Sink.accepting (ascii "abc") (ascii "X") (ascii "ab"))
      (ascii "cab") (by decide)).2 (by decide) rfl).1⟩

/-- C8: for a non-empty pattern, `Write` returns an error exactly when it makes a call to
the writer (`safe > 0`) and that call fails; it then returns `0` and the writer's error
itself.  In every other case it returns `(len(chunk), nil)`.  The call to the writer is
made exactly when `safe > 0`. -/
theorem Write_fails_iff_sink_fails (srw : streamReplaceWriter) (p : List Byte)
    (_hpat : srw.pat ≠ []) :
    (((srw.Write p).2.2 ≠ none ↔
        (0 < (srw.appendChunk p).safe ∧
          srw.w.answer srw.w.calls
            (ReplaceAll ((srw.buf ++ p).take (srw.appendChunk p).safe.toNat)
              srw.pat srw.rep) ≠ none)) ∧
      (∀ e : Error, 0 < (srw.appendChunk p).safe →
        srw.w.answer srw.w.calls
            (ReplaceAll ((srw.buf ++ p).take (srw.appendChunk p).safe.toNat)
              srw.pat srw.rep) = some e →
        (srw.Write p).2 = (0, some e)) ∧
      (((srw.appendChunk p).safe ≤ 0 ∨
          srw.w.answer srw.w.calls
            (ReplaceAll ((srw.buf ++ p).take (srw.appendChunk p).safe.toNat)
              srw.pat srw.rep) = none) →
        (srw.Write p).2 = ((p.length : Int), none)) ∧
      ((srw.Write p).1.w.calls =
        if 0 < (srw.appendChunk p).safe then
          srw.w.calls ++
            [ReplaceAll ((srw.buf ++ p).take (srw.appendChunk p).safe.toNat) srw.pat srw.rep]
        else srw.w.calls)) := by
  by_cases h : 0 < (srw.appendChunk p).safe
  · cases hans : srw.w.answer srw.w.calls
        (ReplaceAll ((srw.buf ++ p).take (srw.appendChunk p).safe.toNat) srw.pat srw.rep) with
    | none =>
      rw [Write_of_safe_pos_ok srw p h hans]
      simp [h]
    | some e =>
      rw [Write_of_safe_pos_err srw p e h hans]
      have h1 : ¬ (srw.appendChunk p).safe ≤ 0 := not_le.mpr h
      simp [h, h1]
  · have h1 : (srw.appendChunk p).safe ≤ 0 := not_lt.mp h
    rw [Write_of_safe_nonpos srw p h1]
    refine ⟨?_, ?_, ?_, ?_⟩
    · simp [h]
    · intro e he; exact absurd he h
    · intro _; rfl
    · rw [if_neg h]; rfl

/-- C8, at a concrete step: a writer that answers every call with `io.ErrClosedPipe`
makes `Write` return `(0, io.ErrClosedPipe)`. -/
theorem Write_fails_iff_sink_fails_witness :
    (ascii "abc" ≠ []) ∧
    ((streamReplaceWriter.mk { calls := [], answer := fun _ _ => some Error.ErrClosedPipe }
        (ascii "abc") (ascii "X") (ascii "ab")).Write (ascii "cab")).2
      = ((0 : Int), some Error.ErrClosedPipe) :=
  ⟨by decide,
    (Write_fails_iff_sink_fails
      (streamReplaceWriter.mk { calls := [], answer := fun _ _ => some Error.ErrClosedPipe }
          (ascii "abc") (ascii "X") (ascii "ab")) (ascii "cab") (by decide)).2.1
      Error.ErrClosedPipe (by decide) rfl⟩

/-- C6: `Flush` is idempotent.  Whatever the state and whatever the writer answers to the
first `Flush`, a second `Flush` right after it makes no call to the writer, returns `nil`
and leaves the buffer empty; and `Flush` on an empty buffer makes no call to the writer,
returns `nil` and changes nothing. -/
theorem Flush_twice_second_is_noop (srw : streamReplaceWriter) :
    (srw.Flush.1.Flush.1.w.calls = srw.Flush.1.w.calls ∧
      srw.Flush.1.Flush.2 = none ∧
      srw.Flush.1.Flush.1.buf = [] ∧
      srw.Flush.1.Flush.1 = srw.Flush.1) ∧
    (∀ (w : Sink) (pat rep : List Byte),
      (streamReplaceWriter.mk w pat rep []).Flush = (streamReplaceWriter.mk w pat rep [], none)) := by
  have hempty : ∀ (w : Sink) (pat rep : List Byte),
      (streamReplaceWriter.mk w pat rep []).Flush =
        (streamReplaceWriter.mk w pat rep [], none) := by
    intro w pat rep
    simp [streamReplaceWriter.Flush]
  have hbuf : srw.Flush.1.buf = [] := by
    unfold streamReplaceWriter.Flush
    split
    · rename_i h; exact List.length_eq_zero.mp h
    · rfl
  have hsecond : srw.Flush.1.Flush = (srw.Flush.1, none) := by
    generalize srw.Flush.1 = s at hbuf ⊢
    cases s with
    | mk w pat rep buf =>
      simp only at hbuf
      subst hbuf
      exact hempty w pat rep
  refine ⟨⟨?_, ?_, ?_, ?_⟩, hempty⟩
  · rw [hsecond]
  · rw [hsecond]
  · rw [hsecond]; exact hbuf
  · rw [hsecond]

/-! ## Sequences of `Write` calls -/

/-- The three ways a `Write` call can end. -/
theorem Write_cases (srw : streamReplaceWriter) (p : List Byte) :
    srw.Write p = (srw.appendChunk p, ((p.length : Int), none)) ∨
      (∃ out, srw.Write p =
        ({ srw with
            w := { srw.w with calls := srw.w.calls ++ [out] },
            buf := (srw.buf ++ p).drop (srw.appendChunk p).safe.toNat },
          ((p.length : Int), none))) ∨
      (∃ out e, srw.Write p =
        ({ srw with w := { srw.w with calls := srw.w.calls ++ [out] }, buf := srw.buf ++ p },
          ((0 : Int), some e))) := by
  by_cases h : 0 < (srw.appendChunk p).safe
  · cases hans : srw.w.answer srw.w.calls
        (ReplaceAll ((srw.buf ++ p).take (srw.appendChunk p).safe.toNat) srw.pat srw.rep) with
    | none => exact Or.inr (Or.inl ⟨_, Write_of_safe_pos_ok srw p h hans⟩)
    | some e => exact Or.inr (Or.inr ⟨_, e, Write_of_safe_pos_err srw p e h hans⟩)
  · exact Or.inl (Write_of_safe_nonpos srw p (not_lt.mp h))

/-- `Write` never changes the pattern. -/
theorem Write_pat (srw : streamReplaceWriter) (p : List Byte) :
    (srw.Write p).1.pat = srw.pat := by
  rcases Write_cases srw p with h | ⟨out, h⟩ | ⟨out, e, h⟩ <;> exact h ▸ rfl

/-- `Write` never changes the replacement. -/
theorem Write_rep (srw : streamReplaceWriter) (p : List Byte) :
    (srw.Write p).1.rep = srw.rep := by
  rcases Write_cases srw p with h | ⟨out, h⟩ | ⟨out, e, h⟩ <;> exact h ▸ rfl

/-- `Write` never changes how the writer answers. -/
theorem Write_answer (srw : streamReplaceWriter) (p : List Byte) :
    (srw.Write p).1.w.answer = srw.w.answer := by
  rcases Write_cases srw p with h | ⟨out, h⟩ | ⟨out, e, h⟩ <;> exact h ▸ rfl

/-- After a `Write` that returned `nil`, at most `len(pat) - 1` bytes are buffered. -/
theorem Write_buf_length_le (srw : streamReplaceWriter) (p : List Byte)
    (hpat : srw.pat ≠ []) (hok : (srw.Write p).2.2 = none) :
    (srw.Write p).1.buf.length ≤ srw.pat.length - 1 := by
  have hlen : 0 < srw.pat.length := List.length_pos.mpr hpat
  by_cases h : 0 < (srw.appendChunk p).safe
  · cases hans : srw.w.answer srw.w.calls
        (ReplaceAll ((srw.buf ++ p).take (srw.appendChunk p).safe.toNat) srw.pat srw.rep) with
    | none =>
      rw [Write_of_safe_pos_ok srw p h hans]
      rw [safe_appendChunk] at h ⊢
      simp only [List.length_drop]
      omega
    | some e =>
      rw [Write_of_safe_pos_err srw p e h hans] at hok
      simp at hok
  · have h1 : (srw.appendChunk p).safe ≤ 0 := not_lt.mp h
    rw [Write_of_safe_nonpos srw p h1]
    rw [safe_appendChunk] at h1
    simp only [streamReplaceWriter.appendChunk]
    omega

/-- Writing a concatenation of chunk sequences is writing one after the other. -/
theorem writeChunks_append (srw : streamReplaceWriter) (xs ys : List (List Byte)) :
    srw.writeChunks (xs ++ ys) = (srw.writeChunks xs).writeChunks ys := by
  induction xs generalizing srw with
  | nil => rfl
  | cons x xs ih => exact ih (srw.Write x).1

/-- Success of a concatenated sequence of writes, split at the junction. -/
theorem writesSucceed_append (srw : streamReplaceWriter) (xs ys : List (List Byte)) :
    srw.writesSucceed (xs ++ ys) =
      (srw.writesSucceed xs && (srw.writeChunks xs).writesSucceed ys) := by
  induction xs generalizing srw with
  | nil => simp [streamReplaceWriter.writesSucceed, streamReplaceWriter.writeChunks]
  | cons x xs ih =>
    show ((srw.Write x).2.2.isNone && (srw.Write x).1.writesSucceed (xs ++ ys)) = _
    rw [ih]
    simp only [streamReplaceWriter.writesSucceed, streamReplaceWriter.writeChunks,
      Bool.and_assoc]

/-- A sequence of writes never changes the pattern. -/
theorem writeChunks_pat (srw : streamReplaceWriter) (xs : List (List Byte)) :
    (srw.writeChunks xs).pat = srw.pat := by
  induction xs generalizing srw with
  | nil => rfl
  | cons x xs ih =>
    simp only [streamReplaceWriter.writeChunks]
    rw [ih, Write_pat]

/-- The buffer bound is kept by every sequence of writes that all return `nil`. -/
theorem writeChunks_buf_length_le (srw : streamReplaceWriter) (xs : List (List Byte))
    (hpat : srw.pat ≠ []) (hbuf : srw.buf.length ≤ srw.pat.length - 1)
    (hok : srw.writesSucceed xs = true) :
    (srw.writeChunks xs).buf.length ≤ srw.pat.length - 1 := by
  induction xs generalizing srw with
  | nil => exact hbuf
  | cons x xs ih =>
    simp only [streamReplaceWriter.writesSucceed, Bool.and_eq_true,
      Option.isNone_iff_eq_none] at hok
    simp only [streamReplaceWriter.writeChunks]
    have hp := Write_pat srw x
    have := ih (srw.Write x).1 (by rw [hp]; exact hpat)
      (by rw [hp]; exact Write_buf_length_le srw x hpat hok.1) hok.2
    rw [hp] at this
    exact this

/-- C5: the memory bound.  For a non-empty pattern and a sequence of `Write` calls on a
fresh replacer that all return `nil`: inside the call number `k` the buffer holds at most
`len(P) - 1` bytes plus the chunk being written, and after the call returns it holds at
most `len(P) - 1` bytes. -/
theorem buffer_length_bound (w : Sink) (pat rep : List Byte) (hpat : pat ≠ [])
    (chunks : List (List Byte))
    (hok : (newStreamReplaceWriter w pat rep).writesSucceed chunks = true)
    (k : Nat) (hk : k < chunks.length) :
    ((((newStreamReplaceWriter w pat rep).writeChunks (chunks.take k)).appendChunk
          (chunks.get ⟨k, hk⟩)).buf.length ≤ pat.length - 1 + (chunks.get ⟨k, hk⟩).length) ∧
      (((newStreamReplaceWriter w pat rep).writeChunks (chunks.take (k + 1))).buf.length
        ≤ pat.length - 1) := by
  have hsplit : chunks = chunks.take (k + 1) ++ chunks.drop (k + 1) :=
    (List.take_append_drop _ _).symm
  have hsplit2 : chunks.take (k + 1) = chunks.take k ++ [chunks.get ⟨k, hk⟩] := by
    rw [List.take_succ, List.getElem?_eq_getElem hk]
    rfl
  have hok1 : (newStreamReplaceWriter w pat rep).writesSucceed (chunks.take (k + 1)) = true := by
    rw [hsplit, writesSucceed_append, Bool.and_eq_true] at hok
    exact hok.1
  have hok0 : (newStreamReplaceWriter w pat rep).writesSucceed (chunks.take k) = true := by
    rw [hsplit2, writesSucceed_append, Bool.and_eq_true] at hok1
    exact hok1.1
  have hfresh : (newStreamReplaceWriter w pat rep).buf.length
      ≤ (newStreamReplaceWriter w pat rep).pat.length - 1 := by
    simp [newStreamReplaceWriter]
  constructor
  · have h0 := writeChunks_buf_length_le (newStreamReplaceWriter w pat rep) (chunks.take k)
      hpat hfresh hok0
    simp only [streamReplaceWriter.appendChunk, List.length_append]
    have hp : (newStreamReplaceWriter w pat rep).pat = pat := rfl
    rw [hp] at h0
    omega
  · exact writeChunks_buf_length_le (newStreamReplaceWriter w pat rep) (chunks.take (k + 1))
      hpat hfresh hok1

/-- C5, at a concrete sequence: pattern `abc`, chunks `a`, `bcabc`, `xy`; in the second
call the buffer reaches six bytes and is cut back to two. -/
theorem buffer_length_bound_witness :
    (ascii "abc" ≠ []) ∧
      ((newStreamReplaceWriter Sink.accepting (ascii "abc") (ascii "X")).writesSucceed
        [ascii "a", ascii "bcabc", ascii "xy"] = true) ∧
      ((((newStreamReplaceWriter Sink.accepting (ascii "abc") (ascii "X")).writeChunks
          ([ascii "a", ascii "bcabc", ascii "xy"].take 1)).appendChunk
            ([ascii "a", ascii "bcabc", ascii "xy"].get ⟨1, by decide⟩)).buf.length
          ≤ (ascii "abc").length - 1
            + ([ascii "a", ascii "bcabc", ascii "xy"].get ⟨1, by decide⟩).length) ∧
      (((newStreamReplaceWriter Sink.accepting (ascii "abc") (ascii "X")).writeChunks
          ([ascii "a", ascii "bcabc", ascii "xy"].take (1 + 1))).buf.length
        ≤ (ascii "abc").length - 1) :=
  ⟨by decide, by decide,
    buffer_length_bound Sink.accepting (ascii "abc") (ascii "X") (by decide)
      [ascii "a", ascii "bcabc", ascii "xy"] (by decide) 1 (by decide)⟩

/-! ## Input without any occurrence of the pattern -/

/-- Where `old` does not occur, the replacement scan copies its input. -/
theorem replaceScan_of_no_occurrence (old new : List Byte) :
    ∀ s : List Byte, ¬ old <:+: s → replaceScan old new 0 s = s
  | [], _ => rfl
  | c :: t, h => by
    have hpre : old.isPrefixOf (c :: t) = false := by
      cases hp : old.isPrefixOf (c :: t) with
      | false => rfl
      | true => exact absurd (List.isPrefixOf_iff_prefix.mp hp).isInfix h
    have ht : ¬ old <:+: t := fun hi => h (List.infix_cons hi)
    simp only [replaceScan, hpre]
    rw [replaceScan_of_no_occurrence old new t ht]
    rfl

/-- Where a non-empty `old` does not occur, `bytes.ReplaceAll` returns a copy of its
input. -/
theorem ReplaceAll_of_no_occurrence (s old new : List Byte) (hold : old ≠ [])
    (h : ¬ old <:+: s) : ReplaceAll s old new = s := by
  simp only [ReplaceAll, hold, if_false]
  exact replaceScan_of_no_occurrence old new s h

/-- `Flush` with a writer that never fails and a buffer free of the pattern: the buffer
is handed over unchanged. -/
theorem Flush_emitted_of_no_occurrence (srw : streamReplaceWriter) (hpat : srw.pat ≠ [])
    (h : ¬ srw.pat <:+: srw.buf) :
    srw.Flush.1.w.emitted = srw.w.emitted ++ srw.buf := by
  unfold streamReplaceWriter.Flush
  split
  · rename_i h0
    rw [List.length_eq_zero.mp h0, List.append_nil]
  · simp only [Sink.Write, Sink.emitted, List.flatten_append, List.flatten_cons,
      List.flatten_nil, List.append_nil]
    rw [ReplaceAll_of_no_occurrence srw.buf srw.pat srw.rep hpat h]

/-- One `Write` with a writer that never fails, when the pattern occurs nowhere in the
buffer followed by the chunk: emitted bytes followed by the buffer grow by the chunk. -/
theorem Write_emitted_of_no_occurrence (srw : streamReplaceWriter) (p : List Byte)
    (hw : srw.w.neverFails) (hpat : srw.pat ≠ []) (h : ¬ srw.pat <:+: srw.buf ++ p) :
    (srw.Write p).1.w.emitted ++ (srw.Write p).1.buf = srw.w.emitted ++ (srw.buf ++ p) ∧
      (srw.Write p).1.buf <:+ srw.buf ++ p := by
  by_cases hs : 0 < (srw.appendChunk p).safe
  · rw [Write_of_safe_pos_ok srw p hs (hw _ _)]
    have hno : ¬ srw.pat <:+: (srw.buf ++ p).take (srw.appendChunk p).safe.toNat :=
      fun hi => h (hi.trans (List.take_prefix _ _).isInfix)
    simp only [Sink.emitted, List.flatten_append, List.flatten_cons, List.flatten_nil,
      List.append_nil]
    rw [ReplaceAll_of_no_occurrence _ srw.pat srw.rep hpat hno]
    refine ⟨?_, List.drop_suffix _ _⟩
    rw [List.append_assoc, List.take_append_drop]
  · rw [Write_of_safe_nonpos srw p (not_lt.mp hs)]
    exact ⟨rfl, List.suffix_refl _⟩

/-- Writing chunks and flushing, with a writer that never fails and no occurrence of the
pattern in the buffer followed by the chunks: everything is emitted unchanged. -/
theorem writeChunks_Flush_of_no_occurrence (chunks : List (List Byte)) :
    ∀ srw : streamReplaceWriter, srw.w.neverFails → srw.pat ≠ [] →
      ¬ srw.pat <:+: srw.buf ++ chunks.flatten →
      (srw.writeChunks chunks).Flush.1.w.emitted = srw.w.emitted ++ (srw.buf ++ chunks.flatten) := by
  induction chunks with
  | nil =>
    intro srw _ hpat h
    simp only [List.flatten_nil, List.append_nil] at h ⊢
    exact Flush_emitted_of_no_occurrence srw hpat h
  | cons p ps ih =>
    intro srw hw hpat h
    simp only [List.flatten_cons] at h ⊢
    have hB : ¬ srw.pat <:+: srw.buf ++ p := fun hi =>
      h (hi.trans ⟨[], ps.flatten, by simp⟩)
    obtain ⟨hem, hsuf⟩ := Write_emitted_of_no_occurrence srw p hw hpat hB
    have hw1 : (srw.Write p).1.w.neverFails := by
      intro hh out
      rw [Write_answer]
      exact hw hh out
    have hp1 := Write_pat srw p
    have hno1 : ¬ (srw.Write p).1.pat <:+: (srw.Write p).1.buf ++ ps.flatten := by
      rw [hp1]
      intro hi
      apply h
      obtain ⟨pre, hpre⟩ := hsuf
      refine hi.trans ⟨pre, [], ?_⟩
      rw [List.append_nil, ← List.append_assoc pre, hpre, List.append_assoc]
    have := ih (srw.Write p).1 hw1 (by rw [hp1]; exact hpat) hno1
    simp only [streamReplaceWriter.writeChunks]
    rw [this, ← List.append_assoc, hem]
    simp only [List.append_assoc]

/-- C2: input without the pattern passes unchanged.  For a non-empty pattern `P`, a byte
sequence `S` in which `P` does not occur, any splitting of `S` into chunks and a writer
that never fails: writing the chunks in order to a fresh replacer and flushing emits
exactly `S` (after whatever the writer had received before). -/
theorem stream_output_without_pattern (w : Sink) (hw : w.neverFails)
    (pat rep S : List Byte) (hpat : pat ≠ []) (hno : ¬ pat <:+: S)
    (chunks : List (List Byte)) (hchunks : chunks.flatten = S) :
    streamOutput w pat rep chunks = w.emitted ++ S := by
  subst hchunks
  have := writeChunks_Flush_of_no_occurrence chunks (newStreamReplaceWriter w pat rep) hw hpat
    (by simpa [newStreamReplaceWriter] using hno)
  simpa [streamOutput, newStreamReplaceWriter] using this

/-- C2, at a concrete stream: pattern `abc`, input `xabyabz` in the chunks `xab`, `ya`,
`bz`. -/
theorem stream_output_without_pattern_witness :
    Sink.accepting.neverFails ∧ ascii "abc" ≠ [] ∧ ¬ ascii "abc" <:+: ascii "xabyabz" ∧
      [ascii "xab", ascii "ya", ascii "bz"].flatten = ascii "xabyabz" ∧
      streamOutput Sink.accepting (ascii "abc") (ascii "X")
        [ascii "xab", ascii "ya", ascii "bz"] = Sink.accepting.emitted ++ ascii "xabyabz" :=
  ⟨fun _ _ => rfl, by decide, by decide, by decide,
    stream_output_without_pattern Sink.accepting (fun _ _ => rfl) (ascii "abc") (ascii "X")
      (ascii "xabyabz") (by decide) (by decide) [ascii "xab", ascii "ya", ascii "bz"]
      (by decide)⟩

/-! ## `ModifyResponse` -/

/-- `Contains` decides occurrence as a contiguous run. -/
theorem Contains_iff_occurs {α : Type} [DecidableEq α] (sub : List α) :
    ∀ s : List α, Contains s sub = true ↔ sub <:+: s
  | [] => by
    simp only [Contains, List.isPrefixOf_iff_prefix, List.prefix_nil, List.infix_nil]
  | c :: t => by
    simp only [Contains, Bool.or_eq_true, List.isPrefixOf_iff_prefix, List.infix_cons_iff,
      Contains_iff_occurs sub t]

/-- C9: the bypass.  A response whose `Content-Type` value contains none of `json`,
`text`, `javascript` is returned as it is, headers and body, whatever the body holds, and
the hook returns `nil`. -/
theorem ModifyResponse_bypass (resp : Response)
    (hjson : ¬ ascii "json" <:+: Header.Get resp.Header "Content-Type")
    (htext : ¬ ascii "text" <:+: Header.Get resp.Header "Content-Type")
    (hjs : ¬ ascii "javascript" <:+: Header.Get resp.Header "Content-Type") :
    ModifyResponse resp = (resp, none) := by
  rw [← Contains_iff_occurs, Bool.not_eq_true] at hjson htext hjs
  simp [ModifyResponse, hjson, htext, hjs]

/-- C9, for `image/png` with a body that is the pattern itself and with `Content-Length`
and `Content-Encoding` set. -/
theorem ModifyResponse_bypass_witness :
    (¬ ascii "json" <:+: ascii "image/png") ∧
      (¬ ascii "text" <:+: ascii "image/png") ∧
      (¬ ascii "javascript" <:+: ascii "image/png") ∧
      ModifyResponse
          { Header := [("Content-Type", [ascii "image/png"]), ("Content-Length", [ascii "63"]),
              ("Content-Encoding", [ascii "identity"])],
            Body := Body.stream [pattern] Error.EOF } =
        ({ Header := [("Content-Type", [ascii "image/png"]), ("Content-Length", [ascii "63"]),
              ("Content-Encoding", [ascii "identity"])],
            Body := Body.stream [pattern] Error.EOF }, none) :=
  ⟨by decide, by decide, by decide,
    ModifyResponse_bypass
      { Header := [("Content-Type", [ascii "image/png"]), ("Content-Length", [ascii "63"]),
          ("Content-Encoding", [ascii "identity"])],
        Body := Body.stream [pattern] Error.EOF }
      (by decide) (by decide) (by decide)⟩

/-! ## The stream against a whole-input `ReplaceAll` -/

/-- C1: the stream is not a refinement of `bytes.ReplaceAll`.  With the pattern `abc` and
the replacement `X`, the single chunk `abc` followed by `Flush` emits `abc`, where
`ReplaceAll` gives `X`; and with the pattern `ab`, the input `abab` is emitted as `Xab`
when written as one chunk and as `abab` when written as the chunks `ab`, `ab`, where
`ReplaceAll` gives `XX`: the output depends on the chunking. -/
theorem stream_output_depends_on_chunking :
    streamOutput Sink.accepting (ascii "abc") (ascii "X") [ascii "abc"] = ascii "abc" ∧
      ReplaceAll (ascii "abc") (ascii "abc") (ascii "X") = ascii "X" ∧
      streamOutput Sink.accepting (ascii "ab") (ascii "X") [ascii "abab"] = ascii "Xab" ∧
      streamOutput Sink.accepting (ascii "ab") (ascii "X") [ascii "ab", ascii "ab"]
        = ascii "abab" ∧
      ReplaceAll (ascii "abab") (ascii "ab") (ascii "X") = ascii "XX" := by
  decide

/-- C3: the boundary split example.  With the pattern `abc` and the replacement `X`,
writing `a`, then `bcabc`, then flushing emits `Xabc`, not `XX`: the first occurrence,
which straddles the chunk boundary, is replaced, the second one, cut by the retained
tail, is not. -/
theorem boundary_split_output :
    streamOutput Sink.accepting (ascii "abc") (ascii "X") [ascii "a", ascii "bcabc"]
        = ascii "Xabc" ∧
      streamOutput Sink.accepting (ascii "abc") (ascii "X") [ascii "a", ascii "bcabc"]
        ≠ ascii "XX" := by
  decide

/-- C4: the self-overlapping example.  With the pattern `aa` and the replacement `b`,
the input `aaaa` is emitted as `baa` when written as one chunk, as `aba` when written as
`aa`, `aa`, and unchanged when written byte by byte; `bb`, the value of `ReplaceAll`, is
emitted in none of these cases. -/
theorem self_overlap_output :
    streamOutput Sink.accepting (ascii "aa") (ascii "b") [ascii "aaaa"] = ascii "baa" ∧
      streamOutput Sink.accepting (ascii "aa") (ascii "b") [ascii "aa", ascii "aa"]
        = ascii "aba" ∧
      streamOutput Sink.accepting (ascii "aa") (ascii "b")
        [ascii "a", ascii "a", ascii "a", ascii "a"] = ascii "aaaa" ∧
      ReplaceAll (ascii "aaaa") (ascii "aa") (ascii "b") = ascii "bb" := by
  decide

set_option maxRecDepth 100000 in
/-- C10: the rewritten response.  For a response declared `application/json` whose body
is `{` followed by the pattern followed by `}`, delivered in one read: `ModifyResponse`
removes `Content-Length` and `Content-Encoding` and keeps the other headers, and the new
body read to exhaustion ends cleanly, but it is the original body, with the occurrence
of the pattern not replaced. -/
theorem ModifyResponse_json_body_not_replaced :
    (ModifyResponse
        { Header := [("Content-Type", [ascii "application/json"]),
            ("Content-Length", [ascii "65"]), ("Content-Encoding", [ascii "identity"]),
            ("Cache-Control", [ascii "no-store"])],
          Body := Body.stream [ascii "\x7b" ++ pattern ++ ascii "\x7d"] Error.EOF }).1.Header
        = [("Content-Type", [ascii "application/json"]),
            ("Cache-Control", [ascii "no-store"])] ∧
      (ModifyResponse
        { Header := [("Content-Type", [ascii "application/json"]),
            ("Content-Length", [ascii "65"]), ("Content-Encoding", [ascii "identity"]),
            ("Cache-Control", [ascii "no-store"])],
          Body := Body.stream [ascii "\x7b" ++ pattern ++ ascii "\x7d"] Error.EOF }).1.Body.readAll
        = (ascii "\x7b" ++ pattern ++ ascii "\x7d", Error.EOF) ∧
      ReplaceAll (ascii "\x7b" ++ pattern ++ ascii "\x7d") pattern replacement
        = ascii "\x7b" ++ replacement ++ ascii "\x7d" ∧
      ascii "\x7b" ++ pattern ++ ascii "\x7d" ≠ ascii "\x7b" ++ replacement ++ ascii "\x7d" := by
  decide

/-! ## What a successful `Write` keeps and what it hands to `ReplaceAll` -/

/-- After a `Write` that returned `nil` the buffer is `(buf ++ p)[safe:]`, or all of
`buf ++ p` when `safe ≤ 0`. -/
theorem Write_ok_buf (srw : streamReplaceWriter) (p : List Byte)
    (hok : (srw.Write p).2.2 = none) :
    (srw.Write p).1.buf = (srw.buf ++ p).drop (srw.appendChunk p).safe.toNat := by
  by_cases h : 0 < (srw.appendChunk p).safe
  · cases hans : srw.w.answer srw.w.calls
        (ReplaceAll ((srw.buf ++ p).take (srw.appendChunk p).safe.toNat) srw.pat srw.rep) with
    | none => rw [Write_of_safe_pos_ok srw p h hans]
    | some e =>
      rw [Write_of_safe_pos_err srw p e h hans] at hok
      simp at hok
  · have h1 : (srw.appendChunk p).safe ≤ 0 := not_lt.mp h
    rw [Write_of_safe_nonpos srw p h1, Int.toNat_of_nonpos h1]
    rfl

/-- The calls a `Write` makes to the writer are `ReplaceAll` of the slices it hands
over. -/
theorem Write_calls (srw : streamReplaceWriter) (p : List Byte) :
    (srw.Write p).1.w.calls =
      srw.w.calls ++ (srw.handed p).map (fun s => ReplaceAll s srw.pat srw.rep) := by
  by_cases h : 0 < (srw.appendChunk p).safe
  · have h1 : ¬ (srw.appendChunk p).safe ≤ 0 := not_le.mpr h
    cases hans : srw.w.answer srw.w.calls
        (ReplaceAll ((srw.buf ++ p).take (srw.appendChunk p).safe.toNat) srw.pat srw.rep) with
    | none =>
      rw [Write_of_safe_pos_ok srw p h hans]
      simp only [streamReplaceWriter.handed, h1, if_false, List.map_cons, List.map_nil]
      rfl
    | some e =>
      rw [Write_of_safe_pos_err srw p e h hans]
      simp only [streamReplaceWriter.handed, h1, if_false, List.map_cons, List.map_nil]
      rfl
  · have h1 : (srw.appendChunk p).safe ≤ 0 := not_lt.mp h
    rw [Write_of_safe_nonpos srw p h1]
    simp only [streamReplaceWriter.handed, h1, if_true, List.map_nil, List.append_nil]
    rfl

/-- The bytes handed over by one `Write` are `(buf ++ p)[:safe]`, none when
`safe ≤ 0`. -/
theorem handed_flatten (srw : streamReplaceWriter) (p : List Byte) :
    (srw.handed p).flatten = (srw.buf ++ p).take (srw.appendChunk p).safe.toNat := by
  by_cases h : (srw.appendChunk p).safe ≤ 0
  · simp only [streamReplaceWriter.handed, h, if_true, List.flatten_nil,
      Int.toNat_of_nonpos h, List.take_zero]
  · simp only [streamReplaceWriter.handed, h, if_false, List.flatten_cons, List.flatten_nil,
      List.append_nil]
    rfl

/-- For a non-empty pattern, the bytes that one `Write` sends to the writer are
`ReplaceAll` of `(buf ++ p)[:safe]`. -/
theorem handed_map_flatten (srw : streamReplaceWriter) (p : List Byte)
    (hpat : srw.pat ≠ []) :
    ((srw.handed p).map (fun s => ReplaceAll s srw.pat srw.rep)).flatten =
      ReplaceAll ((srw.buf ++ p).take (srw.appendChunk p).safe.toNat) srw.pat srw.rep := by
  by_cases h : (srw.appendChunk p).safe ≤ 0
  · simp only [streamReplaceWriter.handed, h, if_true, List.map_nil, List.flatten_nil,
      Int.toNat_of_nonpos h, List.take_zero]
    exact (ReplaceAll_nil srw.pat srw.rep hpat).symm
  · simp only [streamReplaceWriter.handed, h, if_false, List.map_cons, List.map_nil,
      List.flatten_cons, List.flatten_nil, List.append_nil]
    rfl

/-- The slices handed over by a concatenated sequence of writes. -/
theorem handedAll_append (srw : streamReplaceWriter) (xs ys : List (List Byte)) :
    srw.handedAll (xs ++ ys) = srw.handedAll xs ++ (srw.writeChunks xs).handedAll ys := by
  induction xs generalizing srw with
  | nil => rfl
  | cons x xs ih =>
    show srw.handed x ++ (srw.Write x).1.handedAll (xs ++ ys) = _
    rw [ih]
    simp only [streamReplaceWriter.handedAll, streamReplaceWriter.writeChunks,
      List.append_assoc]

/-- A sequence of writes never changes the replacement. -/
theorem writeChunks_rep (srw : streamReplaceWriter) (xs : List (List Byte)) :
    (srw.writeChunks xs).rep = srw.rep := by
  induction xs generalizing srw with
  | nil => rfl
  | cons x xs ih =>
    simp only [streamReplaceWriter.writeChunks]
    rw [ih, Write_rep]

/-! ## Chunk ends and cut points -/

/-- No byte lies in the first zero chunks. -/
theorem chunkEnd_zero (chunks : List (List Byte)) : chunkEnd chunks 0 = 0 := by
  simp [chunkEnd]

/-- The last chunk ends where the input ends. -/
theorem chunkEnd_length (chunks : List (List Byte)) :
    chunkEnd chunks chunks.length = chunks.flatten.length := by
  simp [chunkEnd]

/-- Chunk ends inside a first part of the chunking do not depend on what follows. -/
theorem chunkEnd_append_left (pre rest : List (List Byte)) (k : Nat) (hk : k ≤ pre.length) :
    chunkEnd (pre ++ rest) k = chunkEnd pre k := by
  simp only [chunkEnd, List.take_append_of_le_length hk]

/-- Every chunk ends inside the input. -/
theorem chunkEnd_le (chunks : List (List Byte)) (k : Nat) :
    chunkEnd chunks k ≤ chunks.flatten.length := by
  have h : (chunks.take k).flatten ++ (chunks.drop k).flatten = chunks.flatten := by
    rw [← List.flatten_append, List.take_append_drop]
  rw [← h, List.length_append]
  exact Nat.le_add_right _ _

/-- Chunk ends grow with the index. -/
theorem chunkEnd_succ (chunks : List (List Byte)) (k : Nat) (hk : k < chunks.length) :
    chunkEnd chunks (k + 1) = chunkEnd chunks k + (chunks.get ⟨k, hk⟩).length := by
  simp only [chunkEnd, List.take_succ, List.getElem?_eq_getElem hk, Option.toList,
    List.flatten_append, List.flatten_cons, List.flatten_nil, List.append_nil,
    List.length_append, List.get_eq_getElem]

/-- The first `k + 1` chunks, flattened. -/
theorem flatten_take_succ (chunks : List (List Byte)) (k : Nat) (hk : k < chunks.length) :
    (chunks.take (k + 1)).flatten = (chunks.take k).flatten ++ chunks.get ⟨k, hk⟩ := by
  simp only [List.take_succ, List.getElem?_eq_getElem hk, Option.toList,
    List.flatten_append, List.flatten_cons, List.flatten_nil, List.append_nil,
    List.get_eq_getElem]

/-- For a non-empty pattern the cut point number `k` is `n_k - (len(P) - 1)`, cut off at
zero. -/
theorem cutPoint_eq (P : List Byte) (hP : P ≠ []) (chunks : List (List Byte)) (k : Nat) :
    cutPoint P chunks k = chunkEnd chunks k - (P.length - 1) := by
  have hlen : 0 < P.length := List.length_pos.mpr hP
  cases k with
  | zero => simp [cutPoint, chunkEnd_zero]
  | succ k =>
    simp only [cutPoint]
    omega

/-- A slice that ends inside a first part of the input does not depend on what
follows. -/
theorem slice_append_left (X Y : List Byte) (a b : Nat) (hb : b ≤ X.length) :
    slice (X ++ Y) a b = slice X a b := by
  simp only [slice, List.take_append_of_le_length hb]

/-- One step of the window: if the buffer holds the input `X` from position
`len(X) - (len(P) - 1)` on, then on the chunk `p` the slice handed to `ReplaceAll` and
the buffer kept are the two parts of `X ++ p` around position
`len(X ++ p) - (len(P) - 1)`. -/
theorem window_step (srw : streamReplaceWriter) (X p : List Byte) (hpat : srw.pat ≠ [])
    (hbuf : srw.buf = X.drop (X.length - (srw.pat.length - 1))) :
    (srw.buf ++ p).take (srw.appendChunk p).safe.toNat =
        slice (X ++ p) (X.length - (srw.pat.length - 1))
          (X.length + p.length - (srw.pat.length - 1)) ∧
      (srw.buf ++ p).drop (srw.appendChunk p).safe.toNat =
        (X ++ p).drop (X.length + p.length - (srw.pat.length - 1)) := by
  have hlen : 0 < srw.pat.length := List.length_pos.mpr hpat
  have hc : X.length - (srw.pat.length - 1) ≤ X.length := Nat.sub_le _ _
  have hB : srw.buf ++ p = (X ++ p).drop (X.length - (srw.pat.length - 1)) := by
    rw [hbuf, List.drop_append_of_le_length hc]
  have hk : (srw.appendChunk p).safe.toNat =
      (X.length + p.length - (srw.pat.length - 1)) - (X.length - (srw.pat.length - 1)) := by
    rw [safe_appendChunk, hbuf]
    simp only [List.length_append, List.length_drop]
    omega
  rw [hk, hB]
  constructor
  · rw [slice, List.drop_take]
  · rw [List.drop_drop]
    congr 1
    omega

/-- The window after a sequence of successful writes on a fresh replacer: the buffer is
the input from position `n - (len(P) - 1)` on, and the slices handed to `ReplaceAll` add
up to the input before that position. -/
theorem writeChunks_window (w : Sink) (pat rep : List Byte) (hpat : pat ≠ [])
    (chunks : List (List Byte))
    (hok : (newStreamReplaceWriter w pat rep).writesSucceed chunks = true) :
    ((newStreamReplaceWriter w pat rep).writeChunks chunks).buf =
        chunks.flatten.drop (chunks.flatten.length - (pat.length - 1)) ∧
      ((newStreamReplaceWriter w pat rep).handedAll chunks).flatten =
        chunks.flatten.take (chunks.flatten.length - (pat.length - 1)) := by
  induction chunks using List.reverseRecOn with
  | nil => simp [streamReplaceWriter.writeChunks, streamReplaceWriter.handedAll,
      newStreamReplaceWriter]
  | append_singleton pre p ih =>
    rw [writesSucceed_append, Bool.and_eq_true] at hok
    obtain ⟨hbuf, hhand⟩ := ih hok.1
    have hokp : (((newStreamReplaceWriter w pat rep).writeChunks pre).Write p).2.2 = none := by
      have := hok.2
      simp only [streamReplaceWriter.writesSucceed, Bool.and_true,
        Option.isNone_iff_eq_none] at this
      exact this
    have hp : ((newStreamReplaceWriter w pat rep).writeChunks pre).pat = pat :=
      writeChunks_pat _ _
    have hstep := window_step ((newStreamReplaceWriter w pat rep).writeChunks pre)
      pre.flatten p (by rw [hp]; exact hpat) (by rw [hp]; exact hbuf)
    rw [hp] at hstep
    have hfl : (pre ++ [p]).flatten = pre.flatten ++ p := by simp
    constructor
    · rw [writeChunks_append]
      show (((newStreamReplaceWriter w pat rep).writeChunks pre).Write p).1.buf = _
      rw [Write_ok_buf _ _ hokp, hstep.2, hfl, List.length_append]
    · rw [handedAll_append, List.flatten_append, hhand]
      show _ ++ ((((newStreamReplaceWriter w pat rep).writeChunks pre).handed p) ++ []).flatten
        = _
      rw [List.append_nil, handed_flatten, hstep.1, hfl, List.length_append, slice]
      have hc : pre.flatten.length - (pat.length - 1) ≤ pre.flatten.length := Nat.sub_le _ _
      have hcc : pre.flatten.length - (pat.length - 1)
          ≤ pre.flatten.length + p.length - (pat.length - 1) := by omega
      rw [← List.take_append_of_le_length hc]
      have : List.take (pre.flatten.length - (pat.length - 1)) (pre.flatten ++ p) =
          List.take (pre.flatten.length - (pat.length - 1))
            (List.take (pre.flatten.length + p.length - (pat.length - 1)) (pre.flatten ++ p)) := by
        rw [List.take_take, Nat.min_eq_left hcc]
      rw [this, List.take_append_drop]

/-- The calls made to the writer by a sequence of writes are `ReplaceAll` of the slices
handed over, one call for each slice. -/
theorem writeChunks_calls (srw : streamReplaceWriter) (xs : List (List Byte)) :
    (srw.writeChunks xs).w.calls =
      srw.w.calls ++ (srw.handedAll xs).map (fun s => ReplaceAll s srw.pat srw.rep) := by
  induction xs generalizing srw with
  | nil => simp [streamReplaceWriter.writeChunks, streamReplaceWriter.handedAll]
  | cons x xs ih =>
    simp only [streamReplaceWriter.writeChunks, streamReplaceWriter.handedAll]
    rw [ih, Write_calls, Write_pat, Write_rep, List.map_append, List.append_assoc]

/-- For a non-empty pattern, `Flush` sends `ReplaceAll` of the buffer to the writer
(nothing when the buffer is empty). -/
theorem Flush_emitted (srw : streamReplaceWriter) (hpat : srw.pat ≠ []) :
    srw.Flush.1.w.emitted = srw.w.emitted ++ ReplaceAll srw.buf srw.pat srw.rep := by
  unfold streamReplaceWriter.Flush
  split
  · rename_i h0
    rw [List.length_eq_zero.mp h0, ReplaceAll_nil srw.pat srw.rep hpat, List.append_nil]
  · simp only [Sink.Write, Sink.emitted, List.flatten_append, List.flatten_cons,
      List.flatten_nil, List.append_nil]

/-- The bytes sent to the writer by a sequence of successful writes on a fresh replacer
are `ReplaceAll` of the slices between consecutive cut points. -/
theorem writeChunks_emitted (w : Sink) (pat rep : List Byte) (hpat : pat ≠ [])
    (chunks : List (List Byte))
    (hok : (newStreamReplaceWriter w pat rep).writesSucceed chunks = true) :
    ((newStreamReplaceWriter w pat rep).writeChunks chunks).w.emitted =
      w.emitted ++ ((List.range chunks.length).map (fun k =>
        ReplaceAll (slice chunks.flatten (cutPoint pat chunks k) (cutPoint pat chunks (k + 1)))
          pat rep)).flatten := by
  induction chunks using List.reverseRecOn with
  | nil => simp [streamReplaceWriter.writeChunks, newStreamReplaceWriter]
  | append_singleton pre p ih =>
    rw [writesSucceed_append, Bool.and_eq_true] at hok
    have hpre := ih hok.1
    have hbuf := (writeChunks_window w pat rep hpat pre hok.1).1
    have hp : ((newStreamReplaceWriter w pat rep).writeChunks pre).pat = pat :=
      writeChunks_pat _ _
    have hr : ((newStreamReplaceWriter w pat rep).writeChunks pre).rep = rep :=
      writeChunks_rep _ _
    have hstep := window_step ((newStreamReplaceWriter w pat rep).writeChunks pre)
      pre.flatten p (by rw [hp]; exact hpat) (by rw [hp]; exact hbuf)
    have hsend := handed_map_flatten ((newStreamReplaceWriter w pat rep).writeChunks pre) p
      (by rw [hp]; exact hpat)
    rw [hstep.1, hp, hr] at hsend
    have hfl : (pre ++ [p]).flatten = pre.flatten ++ p := by simp
    have hold : ∀ k ∈ List.range pre.length,
        ReplaceAll (slice (pre ++ [p]).flatten (cutPoint pat (pre ++ [p]) k)
            (cutPoint pat (pre ++ [p]) (k + 1))) pat rep =
          ReplaceAll (slice pre.flatten (cutPoint pat pre k) (cutPoint pat pre (k + 1)))
            pat rep := by
      intro k hk
      have hk1 : k < pre.length := List.mem_range.mp hk
      rw [cutPoint_eq pat hpat, cutPoint_eq pat hpat, cutPoint_eq pat hpat,
        cutPoint_eq pat hpat, chunkEnd_append_left pre [p] k (Nat.le_of_lt hk1),
        chunkEnd_append_left pre [p] (k + 1) hk1, hfl, slice_append_left]
      exact Nat.le_trans (Nat.sub_le _ _) (chunkEnd_le pre (k + 1))
    have hlast : ReplaceAll (slice (pre ++ [p]).flatten (cutPoint pat (pre ++ [p]) pre.length)
          (cutPoint pat (pre ++ [p]) (pre.length + 1))) pat rep =
        ReplaceAll (slice (pre.flatten ++ p) (pre.flatten.length - (pat.length - 1))
          (pre.flatten.length + p.length - (pat.length - 1))) pat rep := by
      have hm : chunkEnd (pre ++ [p]) (pre.length + 1) = pre.flatten.length + p.length := by
        have := chunkEnd_length (pre ++ [p])
        rw [List.length_append, List.length_singleton, hfl, List.length_append] at this
        exact this
      rw [cutPoint_eq pat hpat, cutPoint_eq pat hpat,
        chunkEnd_append_left pre [p] pre.length (Nat.le_refl _), chunkEnd_length, hm, hfl]
    rw [writeChunks_append]
    show (((newStreamReplaceWriter w pat rep).writeChunks pre).Write p).1.w.emitted = _
    rw [Sink.emitted, Write_calls, List.flatten_append, hp, hr, hsend, ← Sink.emitted, hpre,
      List.length_append, List.length_singleton, List.range_succ, List.map_append,
      List.flatten_append, List.map_congr_left hold, List.map_singleton,
      List.flatten_singleton, hlast, List.append_assoc]

/-- A slice shorter than the pattern is copied by `ReplaceAll`. -/
theorem ReplaceAll_of_short (s old new : List Byte) (h : s.length < old.length) :
    ReplaceAll s old new = s :=
  ReplaceAll_of_no_occurrence s old new
    (fun h0 => by rw [h0] at h; exact Nat.not_lt_zero _ h)
    (fun hi => Nat.not_le_of_lt h hi.length_le)

/-- The first chunks of a successful sequence of writes are written successfully. -/
theorem writesSucceed_take (srw : streamReplaceWriter) (chunks : List (List Byte)) (k : Nat)
    (hok : srw.writesSucceed chunks = true) : srw.writesSucceed (chunks.take k) = true := by
  rw [← List.take_append_drop k chunks, writesSucceed_append, Bool.and_eq_true] at hok
  exact hok.1

/-- C13: the tail content invariant.  For a non-empty pattern `P` and a sequence of
successful `Write` calls on a fresh replacer whose chunks add up to `S` of length `n`:
the buffer after the last call is the last `min(n, len(P) - 1)` bytes of `S`, the slices
handed to `ReplaceAll` add up to the first `n - min(n, len(P) - 1)` bytes of `S`, and
the calls made to the writer are `ReplaceAll` of these slices. -/
theorem tail_content_invariant (w : Sink) (pat rep : List Byte) (hpat : pat ≠ [])
    (chunks : List (List Byte))
    (hok : (newStreamReplaceWriter w pat rep).writesSucceed chunks = true) :
    ((newStreamReplaceWriter w pat rep).writeChunks chunks).buf =
        chunks.flatten.drop
          (chunks.flatten.length - min chunks.flatten.length (pat.length - 1)) ∧
      ((newStreamReplaceWriter w pat rep).writeChunks chunks).buf.length =
        min chunks.flatten.length (pat.length - 1) ∧
      ((newStreamReplaceWriter w pat rep).handedAll chunks).flatten =
        chunks.flatten.take
          (chunks.flatten.length - min chunks.flatten.length (pat.length - 1)) ∧
      ((newStreamReplaceWriter w pat rep).writeChunks chunks).w.calls =
        w.calls ++ ((newStreamReplaceWriter w pat rep).handedAll chunks).map
          (fun s => ReplaceAll s pat rep) := by
  obtain ⟨hbuf, hhand⟩ := writeChunks_window w pat rep hpat chunks hok
  have hn : chunks.flatten.length - min chunks.flatten.length (pat.length - 1) =
      chunks.flatten.length - (pat.length - 1) := by omega
  rw [hn]
  refine ⟨hbuf, ?_, hhand, writeChunks_calls _ _⟩
  rw [hbuf, List.length_drop]
  omega

/-- C13, at a concrete sequence: pattern `abc`, chunks `a`, `bcabc`, `xy`; of the eight
bytes the last two, `xy`, are buffered and the first six were handed to `ReplaceAll`. -/
theorem tail_content_invariant_witness :
    (ascii "abc" ≠ []) ∧
      ((newStreamReplaceWriter Sink.accepting (ascii "abc") (ascii "X")).writesSucceed
        [ascii "a", ascii "bcabc", ascii "xy"] = true) ∧
      ((newStreamReplaceWriter Sink.accepting (ascii "abc") (ascii "X")).writeChunks
        [ascii "a", ascii "bcabc", ascii "xy"]).buf =
          [ascii "a", ascii "bcabc", ascii "xy"].flatten.drop
            ([ascii "a", ascii "bcabc", ascii "xy"].flatten.length -
              min [ascii "a", ascii "bcabc", ascii "xy"].flatten.length
                ((ascii "abc").length - 1)) :=
  ⟨by decide, by decide,
    (tail_content_invariant Sink.accepting (ascii "abc") (ascii "X") (by decide)
      [ascii "a", ascii "bcabc", ascii "xy"] (by decide)).1⟩

/-- C14: containment of split occurrences.  For a non-empty pattern `P`, a sequence of
successful `Write` calls on a fresh replacer with chunks adding up to `S`, an occurrence
of `P` at position `i` of `S` and the index `k` of the chunk that holds its last byte:
the buffer kept before call `k` followed by chunk `k` is the slice of `S` from
`n_k - len(buffer)` to `n_{k+1}`, it starts at or before `i`, and it holds the occurrence
at the offset `i - (n_k - len(buffer))`. -/
theorem split_occurrence_contained (w : Sink) (pat rep : List Byte) (hpat : pat ≠ [])
    (chunks : List (List Byte))
    (hok : (newStreamReplaceWriter w pat rep).writesSucceed chunks = true)
    (i k : Nat) (hk : k < chunks.length)
    (hocc : pat <+: chunks.flatten.drop i)
    (hlo : chunkEnd chunks k ≤ i + pat.length - 1)
    (hhi : i + pat.length - 1 < chunkEnd chunks (k + 1)) :
    (((newStreamReplaceWriter w pat rep).writeChunks (chunks.take k)).buf ++
          chunks.get ⟨k, hk⟩ =
        slice chunks.flatten
          (chunkEnd chunks k -
            ((newStreamReplaceWriter w pat rep).writeChunks (chunks.take k)).buf.length)
          (chunkEnd chunks (k + 1))) ∧
      (chunkEnd chunks k -
          ((newStreamReplaceWriter w pat rep).writeChunks (chunks.take k)).buf.length ≤ i) ∧
      (pat <+: (((newStreamReplaceWriter w pat rep).writeChunks (chunks.take k)).buf ++
          chunks.get ⟨k, hk⟩).drop
            (i - (chunkEnd chunks k -
              ((newStreamReplaceWriter w pat rep).writeChunks (chunks.take k)).buf.length))) ∧
      (pat <:+: ((newStreamReplaceWriter w pat rep).writeChunks (chunks.take k)).buf ++
          chunks.get ⟨k, hk⟩) := by
  have hlen : 0 < pat.length := List.length_pos.mpr hpat
  have hokk := writesSucceed_take _ chunks k hok
  have hbuf := (writeChunks_window w pat rep hpat (chunks.take k) hokk).1
  have hX : (chunks.take k).flatten.length = chunkEnd chunks k := rfl
  have hY : (chunks.take (k + 1)).flatten = (chunks.take k).flatten ++ chunks.get ⟨k, hk⟩ :=
    flatten_take_succ chunks k hk
  have hYlen : ((chunks.take k).flatten ++ chunks.get ⟨k, hk⟩).length = chunkEnd chunks (k + 1) := by
    rw [← hY]; rfl
  have hS : chunks.flatten =
      ((chunks.take k).flatten ++ chunks.get ⟨k, hk⟩) ++ (chunks.drop (k + 1)).flatten := by
    rw [← hY, ← List.flatten_append, List.take_append_drop]
  have hc : chunkEnd chunks k - (pat.length - 1) ≤ (chunks.take k).flatten.length := by
    rw [hX]; exact Nat.sub_le _ _
  have hB : ((newStreamReplaceWriter w pat rep).writeChunks (chunks.take k)).buf ++
      chunks.get ⟨k, hk⟩ =
      ((chunks.take k).flatten ++ chunks.get ⟨k, hk⟩).drop (chunkEnd chunks k - (pat.length - 1)) := by
    rw [hbuf, hX, List.drop_append_of_le_length hc]
  have hstart : chunkEnd chunks k -
      ((newStreamReplaceWriter w pat rep).writeChunks (chunks.take k)).buf.length =
      chunkEnd chunks k - (pat.length - 1) := by
    rw [hbuf, List.length_drop, hX]
    omega
  have hci : chunkEnd chunks k - (pat.length - 1) ≤ i := by omega
  have hpre : pat <+: (((chunks.take k).flatten ++ chunks.get ⟨k, hk⟩).drop i) := by
    have hi : i ≤ ((chunks.take k).flatten ++ chunks.get ⟨k, hk⟩).length := by
      rw [hYlen]; omega
    rw [hS, List.drop_append_of_le_length hi] at hocc
    refine List.prefix_of_prefix_length_le hocc (List.prefix_append _ _) ?_
    rw [List.length_drop, hYlen]
    omega
  have hdrop : (((newStreamReplaceWriter w pat rep).writeChunks (chunks.take k)).buf ++
      chunks.get ⟨k, hk⟩).drop (i - (chunkEnd chunks k - (pat.length - 1))) =
      ((chunks.take k).flatten ++ chunks.get ⟨k, hk⟩).drop i := by
    rw [hB, List.drop_drop]
    congr 1
    omega
  rw [hstart]
  refine ⟨?_, hci, ?_, ?_⟩
  · rw [hB, slice]
    congr 1
    conv_rhs => rw [hS]
    exact (List.take_left' hYlen).symm
  · rw [hdrop]; exact hpre
  · have h1 : pat <:+: (((newStreamReplaceWriter w pat rep).writeChunks (chunks.take k)).buf ++
        chunks.get ⟨k, hk⟩).drop (i - (chunkEnd chunks k - (pat.length - 1))) := by
      rw [hdrop]; exact hpre.isInfix
    exact h1.trans (List.drop_suffix _ _).isInfix

/-- C14, at a concrete stream: pattern `abc`, chunks `a`, `bcabc`; the occurrence at
position `0` ends in the second chunk, and the buffer `a` followed by `bcabc` holds
it. -/
theorem split_occurrence_contained_witness :
    (ascii "abc" ≠ []) ∧
      ((newStreamReplaceWriter Sink.accepting (ascii "abc") (ascii "X")).writesSucceed
        [ascii "a", ascii "bcabc"] = true) ∧
      (ascii "abc" <+: [ascii "a", ascii "bcabc"].flatten.drop 0) ∧
      (chunkEnd [ascii "a", ascii "bcabc"] 1 ≤ 0 + (ascii "abc").length - 1) ∧
      (0 + (ascii "abc").length - 1 < chunkEnd [ascii "a", ascii "bcabc"] (1 + 1)) ∧
      (ascii "abc" <:+:
        ((newStreamReplaceWriter Sink.accepting (ascii "abc") (ascii "X")).writeChunks
          ([ascii "a", ascii "bcabc"].take 1)).buf ++
            [ascii "a", ascii "bcabc"].get ⟨1, by decide⟩) :=
  ⟨by decide, by decide, by decide, by decide, by decide,
    (split_occurrence_contained Sink.accepting (ascii "abc") (ascii "X") (by decide)
      [ascii "a", ascii "bcabc"] (by decide) 0 1 (by decide) (by decide) (by decide)
      (by decide)).2.2.2⟩

/-- C15, refuted as stated: with the pattern `abc`, the successful `Write` of `xyz` on a
fresh replacer leaves `yz` in the buffer, which is not a prefix of the pattern. -/
theorem buffer_not_only_candidates :
    ((newStreamReplaceWriter Sink.accepting (ascii "abc") (ascii "X")).Write (ascii "xyz")).2
        = ((3 : Int), none) ∧
      ((newStreamReplaceWriter Sink.accepting (ascii "abc") (ascii "X")).Write
        (ascii "xyz")).1.buf = ascii "yz" ∧
      ¬ ascii "yz" <+: ascii "abc" := by
  decide

/-- C15, amended: after a sequence of successful `Write` calls on a fresh replacer with a
non-empty pattern `P`, the buffer is a suffix of the input of length
`min(n, len(P) - 1)`, and every suffix of the input that is a strict prefix of `P` (every
candidate for a future match) is a suffix of the buffer. -/
theorem buffer_holds_every_candidate (w : Sink) (pat rep : List Byte) (hpat : pat ≠ [])
    (chunks : List (List Byte))
    (hok : (newStreamReplaceWriter w pat rep).writesSucceed chunks = true) :
    (((newStreamReplaceWriter w pat rep).writeChunks chunks).buf <:+ chunks.flatten) ∧
      (((newStreamReplaceWriter w pat rep).writeChunks chunks).buf.length =
        min chunks.flatten.length (pat.length - 1)) ∧
      (∀ t : List Byte, t <:+ chunks.flatten → t <+: pat → t ≠ pat →
        t <:+ ((newStreamReplaceWriter w pat rep).writeChunks chunks).buf) := by
  have hlen : 0 < pat.length := List.length_pos.mpr hpat
  have hbuf := (writeChunks_window w pat rep hpat chunks hok).1
  refine ⟨?_, ?_, ?_⟩
  · rw [hbuf]; exact List.drop_suffix _ _
  · rw [hbuf, List.length_drop]; omega
  · intro t hsuf hpre hne
    have htlen : t.length < pat.length := by
      rcases Nat.lt_or_ge t.length pat.length with h | h
      · exact h
      · exact absurd (hpre.eq_of_length_le h) hne
    have htS : t.length ≤ chunks.flatten.length := hsuf.length_le
    have ht : t = chunks.flatten.drop (chunks.flatten.length - t.length) :=
      List.suffix_iff_eq_drop.mp hsuf
    have hsplit : chunks.flatten.drop (chunks.flatten.length - t.length) =
        (chunks.flatten.drop (chunks.flatten.length - (pat.length - 1))).drop
          ((chunks.flatten.length - t.length) - (chunks.flatten.length - (pat.length - 1))) := by
      rw [List.drop_drop]
      congr 1
      omega
    rw [hbuf, ht, hsplit]
    exact List.drop_suffix _ _

/-- C15 amended, at a concrete step: pattern `abc`, chunk `xab`; the candidate `ab` is a
suffix of the buffer `ab`. -/
theorem buffer_holds_every_candidate_witness :
    (ascii "abc" ≠ []) ∧
      ((newStreamReplaceWriter Sink.accepting (ascii "abc") (ascii "X")).writesSucceed
        [ascii "xab"] = true) ∧
      (ascii "ab" <:+ [ascii "xab"].flatten) ∧ (ascii "ab" <+: ascii "abc") ∧
      (ascii "ab" ≠ ascii "abc") ∧
      (ascii "ab" <:+
        ((newStreamReplaceWriter Sink.accepting (ascii "abc") (ascii "X")).writeChunks
          [ascii "xab"]).buf) :=
  ⟨by decide, by decide, by decide, by decide, by decide,
    (buffer_holds_every_candidate Sink.accepting (ascii "abc") (ascii "X") (by decide)
      [ascii "xab"] (by decide)).2.2 (ascii "ab") (by decide) (by decide) (by decide)⟩

/-- C17: the exact output of the stream.  For a non-empty pattern `P` and chunks
`c_1 .. c_m` of `S` written successfully to a fresh replacer and then flushed, the bytes
sent to the writer are `ReplaceAll(S[cut_0:cut_1]) ++ ... ++ ReplaceAll(S[cut_{m-1}:cut_m])
++ ReplaceAll(S[cut_m:])` with `cut_0 = 0` and `cut_k = max(0, n_k - (len(P) - 1))`. -/
theorem stream_output_by_segments (w : Sink) (pat rep : List Byte) (hpat : pat ≠ [])
    (chunks : List (List Byte))
    (hok : (newStreamReplaceWriter w pat rep).writesSucceed chunks = true) :
    streamOutput w pat rep chunks = w.emitted ++ segmentedOutput pat rep chunks := by
  have hbuf := (writeChunks_window w pat rep hpat chunks hok).1
  have hem := writeChunks_emitted w pat rep hpat chunks hok
  have hp : ((newStreamReplaceWriter w pat rep).writeChunks chunks).pat = pat :=
    writeChunks_pat _ _
  have hr : ((newStreamReplaceWriter w pat rep).writeChunks chunks).rep = rep :=
    writeChunks_rep _ _
  rw [streamOutput, Flush_emitted _ (by rw [hp]; exact hpat), hem, hp, hr, hbuf,
    segmentedOutput, cutPoint_eq pat hpat chunks chunks.length, chunkEnd_length,
    List.append_assoc]

/-- C17, at a concrete stream: pattern `ab`, chunks `ab`, `ab`. -/
theorem stream_output_by_segments_witness :
    (ascii "ab" ≠ []) ∧
      ((newStreamReplaceWriter Sink.accepting (ascii "ab") (ascii "X")).writesSucceed
        [ascii "ab", ascii "ab"] = true) ∧
      streamOutput Sink.accepting (ascii "ab") (ascii "X") [ascii "ab", ascii "ab"] =
        Sink.accepting.emitted ++
          segmentedOutput (ascii "ab") (ascii "X") [ascii "ab", ascii "ab"] :=
  ⟨by decide, by decide,
    stream_output_by_segments Sink.accepting (ascii "ab") (ascii "X") (by decide)
      [ascii "ab", ascii "ab"] (by decide)⟩

/-- C18: `Flush` never replaces.  In a state reached from a fresh replacer by successful
`Write` calls, with a non-empty pattern `P`: the buffer is shorter than `P`, it is the
last `min(n, len(P) - 1)` bytes of the input, `ReplaceAll` leaves it as it is, and `Flush`
makes one call to the writer with exactly these bytes (no call when the buffer is empty).
And with a writer that never fails and `len(P) ≥ 2`, writing the single chunk `P` and
flushing emits `P`. -/
theorem Flush_writes_tail_verbatim (w : Sink) (pat rep : List Byte) (hpat : pat ≠ [])
    (chunks : List (List Byte))
    (hok : (newStreamReplaceWriter w pat rep).writesSucceed chunks = true) :
    (((newStreamReplaceWriter w pat rep).writeChunks chunks).buf.length < pat.length) ∧
      (((newStreamReplaceWriter w pat rep).writeChunks chunks).buf =
        chunks.flatten.drop
          (chunks.flatten.length - min chunks.flatten.length (pat.length - 1))) ∧
      (ReplaceAll ((newStreamReplaceWriter w pat rep).writeChunks chunks).buf pat rep =
        ((newStreamReplaceWriter w pat rep).writeChunks chunks).buf) ∧
      (((newStreamReplaceWriter w pat rep).writeChunks chunks).Flush.1.w.calls =
        ((newStreamReplaceWriter w pat rep).writeChunks chunks).w.calls ++
          (if ((newStreamReplaceWriter w pat rep).writeChunks chunks).buf = [] then []
           else [((newStreamReplaceWriter w pat rep).writeChunks chunks).buf])) ∧
      (w.neverFails → 2 ≤ pat.length → streamOutput w pat rep [pat] = w.emitted ++ pat) := by
  have hlen : 0 < pat.length := List.length_pos.mpr hpat
  have hbuf := (writeChunks_window w pat rep hpat chunks hok).1
  have hp : ((newStreamReplaceWriter w pat rep).writeChunks chunks).pat = pat :=
    writeChunks_pat _ _
  have hr : ((newStreamReplaceWriter w pat rep).writeChunks chunks).rep = rep :=
    writeChunks_rep _ _
  have hshort : ((newStreamReplaceWriter w pat rep).writeChunks chunks).buf.length
      < pat.length := by
    rw [hbuf, List.length_drop]; omega
  have hn : chunks.flatten.length - min chunks.flatten.length (pat.length - 1) =
      chunks.flatten.length - (pat.length - 1) := by omega
  have hRA := ReplaceAll_of_short _ pat rep hshort
  refine ⟨hshort, ?_, hRA, ?_, ?_⟩
  · rw [hn]; exact hbuf
  · unfold streamReplaceWriter.Flush
    split
    · rename_i h0
      rw [if_pos (List.length_eq_zero.mp h0), List.append_nil]
    · rename_i h0
      rw [if_neg (fun h => h0 (by rw [h]; rfl)), hp, hr, hRA]
      rfl
  · intro hw h2
    have hsafe : ((newStreamReplaceWriter w pat rep).appendChunk pat).safe = 1 := by
      simp [streamReplaceWriter.safe, streamReplaceWriter.appendChunk, newStreamReplaceWriter]
    have hW := Write_of_safe_pos_ok (newStreamReplaceWriter w pat rep) pat
      (by rw [hsafe]; decide) (hw _ _)
    rw [hsafe] at hW
    have h1 : ReplaceAll (List.take 1 pat) pat rep = List.take 1 pat :=
      ReplaceAll_of_short _ pat rep (by rw [List.length_take]; omega)
    have h2 : ReplaceAll (List.drop 1 pat) pat rep = List.drop 1 pat :=
      ReplaceAll_of_short _ pat rep (by rw [List.length_drop]; omega)
    have hstate : (newStreamReplaceWriter w pat rep).writeChunks [pat] =
        ((newStreamReplaceWriter w pat rep).Write pat).1 := rfl
    rw [streamOutput, hstate, hW]
    rw [Flush_emitted _ hpat]
    simp only [newStreamReplaceWriter, List.nil_append, Int.toNat_one, Sink.emitted,
      List.flatten_append, List.flatten_cons, List.flatten_nil, List.append_nil]
    rw [h1, h2, List.append_assoc, List.take_append_drop]

/-- C18, at a concrete stream: pattern `abc`, single chunk `abc`; the buffer `bc` is
flushed as it is and the output is `abc`. -/
theorem Flush_writes_tail_verbatim_witness :
    (ascii "abc" ≠ []) ∧
      ((newStreamReplaceWriter Sink.accepting (ascii "abc") (ascii "X")).writesSucceed
        [ascii "abc"] = true) ∧
      Sink.accepting.neverFails ∧ (2 ≤ (ascii "abc").length) ∧
      streamOutput Sink.accepting (ascii "abc") (ascii "X") [ascii "abc"] =
        Sink.accepting.emitted ++ ascii "abc" :=
  ⟨by decide, by decide, fun _ _ => rfl, by decide,
    (Flush_writes_tail_verbatim Sink.accepting (ascii "abc") (ascii "X") (by decide)
      [ascii "abc"] (by decide)).2.2.2.2 (fun _ _ => rfl) (by decide)⟩

/-! ## The producer goroutine -/

/-- A `Write` that returns a `nil` error returns the length of the chunk. -/
theorem Write_ok_result (srw : streamReplaceWriter) (p : List Byte)
    (hok : (srw.Write p).2.2 = none) : (srw.Write p).2 = ((p.length : Int), none) := by
  rcases Write_cases srw p with h | ⟨out, h⟩ | ⟨out, e, h⟩
  · rw [h]
  · rw [h]
  · rw [h] at hok
    simp at hok

/-- `io.Copy` on a chunk of at least one byte whose `Write` fails: the copy stops there
and returns the error of the `Write`. -/
theorem ioCopy_of_Write_error (dst : streamReplaceWriter) (final : Error) (p : List Byte)
    (ps : List (List Byte)) (e : Error) (hp : p.length ≠ 0)
    (herr : (dst.Write p).2 = ((0 : Int), some e)) :
    ioCopy dst final (p :: ps) = ((dst.Write p).1, some e) := by
  cases h : dst.Write p with
  | mk dst1 r =>
    cases r with
    | mk nw ew =>
      rw [h] at herr
      simp only [Prod.mk.injEq] at herr
      obtain ⟨hnw, hew⟩ := herr
      subst hnw
      subst hew
      have hlt : ¬ ((p.length : Int) < 0) := by omega
      simp [ioCopy, hp, h, hlt]

/-- `io.Copy` when every `Write` succeeds: all the reads of at least one byte are
written, and the copy returns the error that ended the reads, `nil` for `io.EOF`. -/
theorem ioCopy_of_writesSucceed (final : Error) (reads : List (List Byte)) :
    ∀ dst : streamReplaceWriter, dst.writesSucceed (nonEmptyReads reads) = true →
      ioCopy dst final reads =
        (dst.writeChunks (nonEmptyReads reads),
          if final = Error.EOF then none else some final) := by
  induction reads with
  | nil =>
    intro dst _
    simp [ioCopy, nonEmptyReads, streamReplaceWriter.writeChunks]
  | cons p ps ih =>
    intro dst hok
    by_cases hp : p.length = 0
    · have hne : nonEmptyReads (p :: ps) = nonEmptyReads ps := by
        simp [nonEmptyReads, List.filter_cons, List.length_eq_zero.mp hp]
      rw [hne] at hok ⊢
      simp only [ioCopy, hp, if_true]
      exact ih dst hok
    · have hne : nonEmptyReads (p :: ps) = p :: nonEmptyReads ps := by
        have hpn : p ≠ [] := fun h => hp (by rw [h]; rfl)
        simp [nonEmptyReads, List.filter_cons, hpn]
      rw [hne] at hok ⊢
      simp only [streamReplaceWriter.writesSucceed, Bool.and_eq_true,
        Option.isNone_iff_eq_none] at hok
      have hres := Write_ok_result dst p hok.1
      have hrest := ih (dst.Write p).1 hok.2
      cases h : dst.Write p with
      | mk dst1 r =>
        cases r with
        | mk nw ew =>
          rw [h] at hres hrest
          simp only [Prod.mk.injEq] at hres
          obtain ⟨hnw, hew⟩ := hres
          subst hnw
          subst hew
          have hlt : ¬ ((p.length : Int) < 0) := by omega
          simp only [streamReplaceWriter.writeChunks, h]
          simp [ioCopy, hp, h, hlt, hrest]

/-- The error the producer closes a fresh pipe with, and the writes it has made: the
writes are those of the copy and of `Flush`; the error is the error of the copy if there
is one, else the error of `Flush` if there is one, else `io.EOF`. -/
theorem producer_eq (pw : PipeWriter) (hfresh : pw.werr = none) (reads : List (List Byte))
    (final : Error) :
    (producer pw reads final).w =
        (ioCopy (newStreamReplaceWriter pw.w pattern replacement) final reads).1.Flush.1.w ∧
      (producer pw reads final).werr =
        some (match (ioCopy (newStreamReplaceWriter pw.w pattern replacement) final reads).2 with
          | some e => e
          | none =>
            match (ioCopy (newStreamReplaceWriter pw.w pattern replacement)
                final reads).1.Flush.2 with
            | some e => e
            | none => Error.EOF) := by
  cases hc : ioCopy (newStreamReplaceWriter pw.w pattern replacement) final reads with
  | mk srw1 err =>
    cases hf : srw1.Flush with
    | mk srw2 err2 =>
      cases err with
      | some e => simp [producer, hc, hf, PipeWriter.CloseWithError, PipeWriter.Close, hfresh]
      | none =>
        cases err2 with
        | some e => simp [producer, hc, hf, PipeWriter.CloseWithError, PipeWriter.Close, hfresh]
        | none => simp [producer, hc, hf, PipeWriter.CloseWithError, PipeWriter.Close, hfresh]

/-- The constant `pattern` is not empty. -/
theorem pattern_ne_nil : pattern ≠ [] := by decide

/-- `Flush` on a buffer shorter than the pattern makes one call to the writer with the
buffer itself, and no call when the buffer is empty. -/
theorem Flush_calls_of_short (srw : streamReplaceWriter)
    (hshort : srw.buf.length < srw.pat.length) :
    srw.Flush.1.w.calls = srw.w.calls ++ (if srw.buf = [] then [] else [srw.buf]) := by
  unfold streamReplaceWriter.Flush
  split
  · rename_i h0
    rw [if_pos (List.length_eq_zero.mp h0), List.append_nil]
  · rename_i h0
    rw [if_neg (fun h => h0 (by rw [h]; rfl)), ReplaceAll_of_short _ _ _ hshort]
    rfl

/-- C11, refuted as stated: the upstream delivers `ab` and then fails with a read error.
`io.Copy` returns the read error having written nothing to the pipe, and the producer
then writes the buffered tail `ab` to the pipe before closing it with the error. -/
theorem tail_written_after_read_error :
    (ioCopy (newStreamReplaceWriter Sink.accepting pattern replacement) (Error.other 1)
        [ascii "ab"]).2 = some (Error.other 1) ∧
      (ioCopy (newStreamReplaceWriter Sink.accepting pattern replacement) (Error.other 1)
        [ascii "ab"]).1.w.calls = [] ∧
      (ioCopy (newStreamReplaceWriter Sink.accepting pattern replacement) (Error.other 1)
        [ascii "ab"]).1.buf = ascii "ab" ∧
      (producer { w := Sink.accepting, werr := none } [ascii "ab"] (Error.other 1)).w.calls
        = [ascii "ab"] ∧
      (producer { w := Sink.accepting, werr := none } [ascii "ab"] (Error.other 1)).werr
        = some (Error.other 1) ∧
      (producer { w := Sink.accepting, werr := none } [ascii "ab"] (Error.other 1)).w.calls
        ≠ (ioCopy (newStreamReplaceWriter Sink.accepting pattern replacement) (Error.other 1)
            [ascii "ab"]).1.w.calls := by
  decide

/-- C11, amended: when every `Write` of the copy succeeds and the upstream ends with a
read error, `io.Copy` returns that error, the producer still calls `Flush`, which writes
the buffered tail unchanged to the pipe in one call (no call when the tail is empty), and
the pipe is then closed with the read error. -/
theorem producer_flushes_after_read_error (pw : PipeWriter) (hfresh : pw.werr = none)
    (reads : List (List Byte)) (final : Error) (hfinal : final ≠ Error.EOF)
    (hok : (newStreamReplaceWriter pw.w pattern replacement).writesSucceed
      (nonEmptyReads reads) = true) :
    (ioCopy (newStreamReplaceWriter pw.w pattern replacement) final reads =
        ((newStreamReplaceWriter pw.w pattern replacement).writeChunks (nonEmptyReads reads),
          some final)) ∧
      ((producer pw reads final).w.calls =
        ((newStreamReplaceWriter pw.w pattern replacement).writeChunks
            (nonEmptyReads reads)).w.calls ++
          (if ((newStreamReplaceWriter pw.w pattern replacement).writeChunks
              (nonEmptyReads reads)).buf = [] then []
           else [((newStreamReplaceWriter pw.w pattern replacement).writeChunks
              (nonEmptyReads reads)).buf])) ∧
      ((producer pw reads final).werr = some final) := by
  have hcopy := ioCopy_of_writesSucceed final reads _ hok
  rw [if_neg hfinal] at hcopy
  obtain ⟨hw, herr⟩ := producer_eq pw hfresh reads final
  rw [hcopy] at hw herr
  have hp : ((newStreamReplaceWriter pw.w pattern replacement).writeChunks
      (nonEmptyReads reads)).pat = pattern := writeChunks_pat _ _
  have hshort : ((newStreamReplaceWriter pw.w pattern replacement).writeChunks
      (nonEmptyReads reads)).buf.length <
      ((newStreamReplaceWriter pw.w pattern replacement).writeChunks
        (nonEmptyReads reads)).pat.length := by
    have hlen : 0 < pattern.length := List.length_pos.mpr pattern_ne_nil
    rw [hp, (writeChunks_window pw.w pattern replacement pattern_ne_nil _ hok).1,
      List.length_drop]
    omega
  refine ⟨hcopy, ?_, herr⟩
  rw [hw]
  exact Flush_calls_of_short _ hshort

/-- C11 amended, at a concrete run: the upstream delivers `ab` and fails; the pipe
receives `ab` and is closed with the read error. -/
theorem producer_flushes_after_read_error_witness :
    ((Error.other 1) ≠ Error.EOF) ∧
      ((newStreamReplaceWriter Sink.accepting pattern replacement).writesSucceed
        (nonEmptyReads [ascii "ab"]) = true) ∧
      ((producer { w := Sink.accepting, werr := none } [ascii "ab"] (Error.other 1)).werr
        = some (Error.other 1)) :=
  ⟨by decide, by decide,
    (producer_flushes_after_read_error { w := Sink.accepting, werr := none } rfl
      [ascii "ab"] (Error.other 1) (by decide) (by decide)).2.2⟩

/-- C12: the error the consumer gets.  On a fresh pipe the producer leaves the write half
closed with the error of the copy when the copy failed, with the error of `Flush` when
only `Flush` failed (the later plain `Close` does not replace it), and with `io.EOF`, a
clean end of stream, when neither failed; a consumer draining the new body observes a
clean end in that last case. -/
theorem producer_closes_with_first_error (pw : PipeWriter) (hfresh : pw.werr = none)
    (reads : List (List Byte)) (final : Error) :
    (∀ e : Error,
        (ioCopy (newStreamReplaceWriter pw.w pattern replacement) final reads).2 = some e →
        (producer pw reads final).werr = some e) ∧
      (∀ e : Error,
        (ioCopy (newStreamReplaceWriter pw.w pattern replacement) final reads).2 = none →
        (ioCopy (newStreamReplaceWriter pw.w pattern replacement) final reads).1.Flush.2
          = some e →
        (producer pw reads final).werr = some e) ∧
      ((ioCopy (newStreamReplaceWriter pw.w pattern replacement) final reads).2 = none →
        (ioCopy (newStreamReplaceWriter pw.w pattern replacement) final reads).1.Flush.2
          = none →
        (producer pw reads final).werr = some Error.EOF) ∧
      ((ioCopy (newStreamReplaceWriter Sink.accepting pattern replacement) final reads).2
          = none →
        (ioCopy (newStreamReplaceWriter Sink.accepting pattern replacement)
          final reads).1.Flush.2 = none →
        (Body.pipeReader (Body.stream reads final)).drain.2 = Error.EOF) := by
  have herr := (producer_eq pw hfresh reads final).2
  refine ⟨?_, ?_, ?_, ?_⟩
  · intro e hc
    rw [herr, hc]
  · intro e hc hf
    rw [herr, hc, hf]
  · intro hc hf
    rw [herr, hc, hf]
  · intro hc hf
    have h2 := (producer_eq { w := Sink.accepting, werr := none } rfl reads final).2
    rw [hc, hf] at h2
    simp only [Body.drain, h2]

/-- C12, at concrete runs: an upstream read error reaches the consumer, and so does the
error of a pipe whose reader is gone. -/
theorem producer_closes_with_first_error_witness :
    ((producer { w := Sink.accepting, werr := none } [ascii "ab"] (Error.other 7)).werr
        = some (Error.other 7)) ∧
      ((producer
          (PipeWriter.mk { calls := [], answer := fun _ _ => some Error.ErrClosedPipe } none)
          [ascii "ab"] Error.EOF).werr = some Error.ErrClosedPipe) :=
  ⟨(producer_closes_with_first_error { w := Sink.accepting, werr := none } rfl
      [ascii "ab"] (Error.other 7)).1 (Error.other 7) (by decide),
    (producer_closes_with_first_error
      (PipeWriter.mk { calls := [], answer := fun _ _ => some Error.ErrClosedPipe } none)
      rfl [ascii "ab"] Error.EOF).2.1 Error.ErrClosedPipe (by decide) (by decide)⟩

/-! ## The decision rule of `ModifyResponse` -/

/-- After `Del` the key has no entry. -/
theorem Header_Del_lookup_self (h : Header) (key : String) :
    List.lookup key (Header.Del h key) = none := by
  induction h with
  | nil => rfl
  | cons kv t ih =>
    obtain ⟨a, v⟩ := kv
    by_cases hk : a = key
    · simp only [Header.Del, List.filter_cons, hk, ne_eq, not_true_eq_false, decide_False]
      exact ih
    · have hk2 : (key == a) = false := by
        rw [beq_eq_false_iff_ne]; exact fun h => hk h.symm
      simp only [Header.Del, List.filter_cons, hk, ne_eq, not_false_eq_true, decide_True,
        if_true, List.lookup_cons, hk2]
      exact ih

/-- `Del` leaves the entries of the other keys as they are. -/
theorem Header_Del_lookup_other (h : Header) (key other : String) (hne : other ≠ key) :
    List.lookup other (Header.Del h key) = List.lookup other h := by
  induction h with
  | nil => rfl
  | cons kv t ih =>
    obtain ⟨a, v⟩ := kv
    by_cases hk : a = key
    · subst hk
      have hk2 : (other == a) = false := by
        rw [beq_eq_false_iff_ne]; exact hne
      show List.lookup other (List.filter (fun kv => decide (kv.1 ≠ a)) ((a, v) :: t)) =
        List.lookup other ((a, v) :: t)
      rw [List.filter_cons]
      simp only [ne_eq, not_true_eq_false, decide_False, Bool.false_eq_true, if_false,
        List.lookup_cons, hk2]
      exact ih
    · simp only [Header.Del, List.filter_cons, hk, ne_eq, not_false_eq_true, decide_True,
        if_true, List.lookup_cons]
      cases (other == a)
      · exact ih
      · rfl

/-- The read half of a pipe fed from a body is never that body itself. -/
theorem pipeReader_ne_self : ∀ b : Body, Body.pipeReader b ≠ b
  | Body.stream _ _ => fun h => Body.noConfusion h
  | Body.pipeReader src => fun h => pipeReader_ne_self src (Body.pipeReader.inj h)

/-- C16: the decision rule.  If the `Content-Type` value contains one of `json`, `text`,
`javascript` (compared byte by byte), `ModifyResponse` returns the response with the
entries `Content-Length` and `Content-Encoding` removed, every other header entry kept,
and the body replaced by the read half of the pipe; otherwise it returns the response
unchanged.  The body is replaced exactly in the first case. -/
theorem ModifyResponse_decision (resp : Response) :
    ((ascii "json" <:+: Header.Get resp.Header "Content-Type" ∨
          ascii "text" <:+: Header.Get resp.Header "Content-Type" ∨
          ascii "javascript" <:+: Header.Get resp.Header "Content-Type") →
        ModifyResponse resp =
            ({ Header := Header.Del (Header.Del resp.Header "Content-Length") "Content-Encoding",
               Body := Body.pipeReader resp.Body }, none) ∧
          List.lookup "Content-Length" (ModifyResponse resp).1.Header = none ∧
          List.lookup "Content-Encoding" (ModifyResponse resp).1.Header = none ∧
          (∀ key : String, key ≠ "Content-Length" → key ≠ "Content-Encoding" →
            List.lookup key (ModifyResponse resp).1.Header = List.lookup key resp.Header)) ∧
      (¬ (ascii "json" <:+: Header.Get resp.Header "Content-Type" ∨
          ascii "text" <:+: Header.Get resp.Header "Content-Type" ∨
          ascii "javascript" <:+: Header.Get resp.Header "Content-Type") →
        ModifyResponse resp = (resp, none)) ∧
      ((ModifyResponse resp).1.Body = Body.pipeReader resp.Body ↔
        (ascii "json" <:+: Header.Get resp.Header "Content-Type" ∨
          ascii "text" <:+: Header.Get resp.Header "Content-Type" ∨
          ascii "javascript" <:+: Header.Get resp.Header "Content-Type")) := by
  have hyes : (ascii "json" <:+: Header.Get resp.Header "Content-Type" ∨
        ascii "text" <:+: Header.Get resp.Header "Content-Type" ∨
        ascii "javascript" <:+: Header.Get resp.Header "Content-Type") →
      ModifyResponse resp =
        ({ Header := Header.Del (Header.Del resp.Header "Content-Length") "Content-Encoding",
           Body := Body.pipeReader resp.Body }, none) := by
    intro h
    simp only [← Contains_iff_occurs] at h
    have hb : (Contains (Header.Get resp.Header "Content-Type") (ascii "json") ||
        Contains (Header.Get resp.Header "Content-Type") (ascii "text") ||
        Contains (Header.Get resp.Header "Content-Type") (ascii "javascript")) = true := by
      simp only [Bool.or_eq_true]
      tauto
    simp only [ModifyResponse, hb, Bool.not_true, Bool.false_eq_true, if_false]
  have hno : ¬ (ascii "json" <:+: Header.Get resp.Header "Content-Type" ∨
        ascii "text" <:+: Header.Get resp.Header "Content-Type" ∨
        ascii "javascript" <:+: Header.Get resp.Header "Content-Type") →
      ModifyResponse resp = (resp, none) := by
    intro h
    simp only [← Contains_iff_occurs] at h
    have hb : (Contains (Header.Get resp.Header "Content-Type") (ascii "json") ||
        Contains (Header.Get resp.Header "Content-Type") (ascii "text") ||
        Contains (Header.Get resp.Header "Content-Type") (ascii "javascript")) = false := by
      rw [← Bool.not_eq_true]
      simp only [Bool.or_eq_true]
      tauto
    simp only [ModifyResponse, hb, Bool.not_false, if_true]
  refine ⟨fun h => ⟨hyes h, ?_, ?_, ?_⟩, hno, ?_⟩
  · rw [hyes h]
    show List.lookup "Content-Length"
      (Header.Del (Header.Del resp.Header "Content-Length") "Content-Encoding") = none
    rw [Header_Del_lookup_other _ _ _ (by decide)]
    exact Header_Del_lookup_self _ _
  · rw [hyes h]
    exact Header_Del_lookup_self _ _
  · intro key h1 h2
    rw [hyes h]
    show List.lookup key
      (Header.Del (Header.Del resp.Header "Content-Length") "Content-Encoding") = _
    rw [Header_Del_lookup_other _ _ _ h2, Header_Del_lookup_other _ _ _ h1]
  · constructor
    · intro hbody
      by_contra hcon
      rw [hno hcon] at hbody
      exact pipeReader_ne_self resp.Body hbody.symm
    · intro h
      rw [hyes h]

set_option maxRecDepth 100000 in
/-- C16, at the three media types named: `application/ld+json` is rewritten,
`application/xhtml+xml` and `Application/JSON` are passed through. -/
theorem ModifyResponse_decision_witness :
    ((ModifyResponse
        (Response.mk [("Content-Type", [ascii "application/ld+json"]), ("Content-Length", [ascii "2"])]
          (Body.stream [ascii "ab"] Error.EOF))).1.Body
        = Body.pipeReader (Body.stream [ascii "ab"] Error.EOF)) ∧
      (ModifyResponse
        (Response.mk [("Content-Type", [ascii "application/xhtml+xml"]), ("Content-Length", [ascii "2"])]
          (Body.stream [ascii "ab"] Error.EOF))
        = ((Response.mk [("Content-Type", [ascii "application/xhtml+xml"]), ("Content-Length", [ascii "2"])]
          (Body.stream [ascii "ab"] Error.EOF)), none)) ∧
      (ModifyResponse
        (Response.mk [("Content-Type", [ascii "Application/JSON"]), ("Content-Length", [ascii "2"])]
          (Body.stream [ascii "ab"] Error.EOF))
        = ((Response.mk [("Content-Type", [ascii "Application/JSON"]), ("Content-Length", [ascii "2"])]
          (Body.stream [ascii "ab"] Error.EOF)), none)) :=
  ⟨(ModifyResponse_decision
      (Response.mk [("Content-Type", [ascii "application/ld+json"]), ("Content-Length", [ascii "2"])]
          (Body.stream [ascii "ab"] Error.EOF))).2.2.mpr (by decide),
    (ModifyResponse_decision
      (Response.mk [("Content-Type", [ascii "application/xhtml+xml"]), ("Content-Length", [ascii "2"])]
          (Body.stream [ascii "ab"] Error.EOF))).2.1 (by decide),
    (ModifyResponse_decision
      (Response.mk [("Content-Type", [ascii "Application/JSON"]), ("Content-Length", [ascii "2"])]
          (Body.stream [ascii "ab"] Error.EOF))).2.1 (by decide)⟩

/-! ## A `Write` whose call to the writer fails -/

/-- C19: a failed `Write` is not atomic.  When `Write` calls the writer (`safe > 0`) and
the call fails with `e`, for a non-empty pattern: `Write` returns `(0, e)`, the buffer is
left as the old buffer followed by the chunk, which is longer than `len(P) - 1`; `io.Copy`
stops with `e`; a `Flush` after it submits `ReplaceAll` of that whole buffer to the
writer; and a later `Write` hands to `ReplaceAll` a slice that starts with the slice
submitted by the failed call. -/
theorem failed_Write_keeps_buffer (srw : streamReplaceWriter) (p : List Byte) (e : Error)
    (hpat : srw.pat ≠ []) (hs : 0 < (srw.appendChunk p).safe)
    (herr : srw.w.answer srw.w.calls
      (ReplaceAll ((srw.buf ++ p).take (srw.appendChunk p).safe.toNat) srw.pat srw.rep)
        = some e) :
    ((srw.Write p).2 = ((0 : Int), some e)) ∧
      ((srw.Write p).1.buf = srw.buf ++ p) ∧
      (srw.pat.length - 1 < (srw.Write p).1.buf.length) ∧
      ((srw.Write p).1.w.calls = srw.w.calls ++
        [ReplaceAll ((srw.buf ++ p).take (srw.appendChunk p).safe.toNat) srw.pat srw.rep]) ∧
      (∀ (final : Error) (ps : List (List Byte)), p.length ≠ 0 →
        ioCopy srw final (p :: ps) = ((srw.Write p).1, some e)) ∧
      ((srw.Write p).1.Flush.1.w.calls =
        (srw.Write p).1.w.calls ++ [ReplaceAll (srw.buf ++ p) srw.pat srw.rep]) ∧
      (∀ q : List Byte,
        (srw.Write p).1.handed q =
            [(srw.buf ++ p ++ q).take ((srw.Write p).1.appendChunk q).safe.toNat] ∧
          (srw.buf ++ p).take (srw.appendChunk p).safe.toNat <+:
            (srw.buf ++ p ++ q).take ((srw.Write p).1.appendChunk q).safe.toNat) := by
  have hlen : 0 < srw.pat.length := List.length_pos.mpr hpat
  have hW := Write_of_safe_pos_err srw p e hs herr
  have hsafe := safe_appendChunk srw p
  have hlong : srw.pat.length - 1 < (srw.buf ++ p).length := by
    rw [hsafe] at hs
    omega
  refine ⟨?_, ?_, ?_, ?_, ?_, ?_, ?_⟩
  · rw [hW]
  · rw [hW]
  · rw [hW]; exact hlong
  · rw [hW]
  · intro final ps hp
    exact ioCopy_of_Write_error srw final p ps e hp (by rw [hW])
  · rw [hW]
    have hne : ¬ (srw.buf ++ p).length = 0 := by omega
    simp only [streamReplaceWriter.Flush, hne, if_false, Sink.Write]
  · intro q
    rw [hW]
    have hsafe2 : (streamReplaceWriter.appendChunk
        { srw with
          w := { srw.w with calls := srw.w.calls ++
            [ReplaceAll ((srw.buf ++ p).take (srw.appendChunk p).safe.toNat) srw.pat srw.rep] },
          buf := srw.buf ++ p } q).safe =
        ((srw.buf ++ p ++ q).length : Int) - ((srw.pat.length : Int) - 1) := by
      rw [safe_appendChunk]
    have hpos : ¬ ((srw.buf ++ p ++ q).length : Int) - ((srw.pat.length : Int) - 1) ≤ 0 := by
      rw [List.length_append]
      omega
    constructor
    · simp only [streamReplaceWriter.handed, hsafe2, hpos, if_false]
      rfl
    · rw [hsafe2, hsafe]
      have h1 : (((srw.buf ++ p).length : Int) - ((srw.pat.length : Int) - 1)).toNat
          ≤ (srw.buf ++ p).length := by omega
      have h2 : (((srw.buf ++ p).length : Int) - ((srw.pat.length : Int) - 1)).toNat
          ≤ (((srw.buf ++ p ++ q).length : Int) - ((srw.pat.length : Int) - 1)).toNat := by
        rw [List.length_append (srw.buf ++ p) q]
        omega
      rw [← List.take_append_of_le_length h1]
      exact List.take_prefix_take_left _ h2

/-- C19, at a concrete step: pattern `abc`, buffer `ab`, chunk `cab`, a writer that
answers `io.ErrClosedPipe`; the buffer is left as `abcab`, five bytes. -/
theorem failed_Write_keeps_buffer_witness :
    (ascii "abc" ≠ []) ∧
      ((streamReplaceWriter.mk { calls := [], answer := fun _ _ => some Error.ErrClosedPipe }
        (ascii "abc") (ascii "X") (ascii "ab")).Write (ascii "cab")).1.buf
        = ascii "ab" ++ ascii "cab" :=
  ⟨by decide,
    (failed_Write_keeps_buffer
      (streamReplaceWriter.mk { calls := [], answer := fun _ _ => some Error.ErrClosedPipe }
        (ascii "abc") (ascii "X") (ascii "ab"))
      (ascii "cab") Error.ErrClosedPipe (by decide) (by decide) rfl).2.1⟩

end GiscusProxy
